import Mathlib

/-!
Verification of the RNAknotDetector geometric-topological core.

This file gives a shallow embedding, in Lean 4, of the C++ core of
RNAknotDetector (src/cpp/core) and proves or refutes the specification
claims about it.  Machine integers of the source are modelled as
unbounded `Int`/`Nat` (with explicit range hypotheses where 32-bit width
matters), `double` is modelled as `ℚ` (all claim-relevant code paths use
only field operations and comparisons), and C++ exceptions are modelled
with `Except String`.  Every definition mirrors one function of the
source; file and line provenance is recorded in each doc comment.
-/

set_option autoImplicit false

deriving instance DecidableEq for Except

namespace rna

/-! ## Data model (entanglement.h) -/

/-- Classification tag of a base pair (entanglement.h, `BasePair::Type`). -/
inductive BPType where
  | unclassified
  | canonical
  | noncanonical
deriving DecidableEq

/-- A base pair of 1-based residue indices (entanglement.h, `BasePair`). -/
structure BasePair where
  i : Int
  j : Int
  bp_type : BPType
deriving DecidableEq

/-- Loop kinds (entanglement.h, `LoopKind`). -/
inductive LoopKind where
  | hairpin
  | internal
  | multi
  | unknown
deriving DecidableEq

/-- A closed structural loop (entanglement.h, `Loop`). -/
structure Loop where
  id : Int
  kind : LoopKind
  closing_pairs : List BasePair
  boundary_residues : List Int
deriving DecidableEq

/-- Options of `BuildLoops`.  The two header snapshots
(entanglement.h / entanglement_core.h) each declare one of the two
flags; `BuildLoops` in entanglement.cpp reads both, so the embedding
carries both. -/
structure LoopBuildOptions where
  main_layer_only : Bool := false
  include_multi : Bool := false

/-- The endpoints of a base pair in ascending order
(pair_utils.h `SortedPair`, and the `min`/`max` idiom used throughout). -/
def normBP (bp : BasePair) : Int × Int := (min bp.i bp.j, max bp.i bp.j)

/-- Two pairs cross (pseudoknot) in the sense of the specification:
with sorted endpoints (a,b) and (c,d), `a<c<b<d` or `c<a<d<b`. -/
def Crosses (p q : Int × Int) : Prop :=
  (min p.1 p.2 < min q.1 q.2 ∧ min q.1 q.2 < max p.1 p.2 ∧ max p.1 p.2 < max q.1 q.2) ∨
  (min q.1 q.2 < min p.1 p.2 ∧ min p.1 p.2 < max q.1 q.2 ∧ max q.1 q.2 < max p.1 p.2)

instance (p q : Int × Int) : Decidable (Crosses p q) := by
  unfold Crosses
  infer_instance

/-- Crossing of compressed (already sorted, `Nat`-indexed) pairs. -/
def CrossesN (p q : Nat × Nat) : Prop :=
  (p.1 < q.1 ∧ q.1 < p.2 ∧ p.2 < q.2) ∨ (q.1 < p.1 ∧ p.1 < q.2 ∧ q.2 < p.2)

instance (p q : Nat × Nat) : Decidable (CrossesN p q) := by
  unfold CrossesN
  infer_instance

/-- Two pairs use pairwise different residues. -/
def EndpointDisjoint (p q : BasePair) : Prop :=
  p.i ≠ q.i ∧ p.i ≠ q.j ∧ p.j ≠ q.i ∧ p.j ≠ q.j

instance (p q : BasePair) : Decidable (EndpointDisjoint p q) := by
  unfold EndpointDisjoint
  infer_instance

/-- Compatibility of two compressed pairs as selected by the DP:
all four endpoints distinct and the pairs do not cross. -/
def Compat (p q : Nat × Nat) : Prop :=
  (p.1 ≠ q.1 ∧ p.1 ≠ q.2 ∧ p.2 ≠ q.1 ∧ p.2 ≠ q.2) ∧ ¬ CrossesN p q

instance (p q : Nat × Nat) : Decidable (Compat p q) := by
  unfold Compat
  infer_instance

/-- A compressed pair that lies inside `[i..j]`, is strictly sorted, and is
present in the pair set `pe`. -/
def PairOk (pe : Nat → Nat → Bool) (i j : Nat) (p : Nat × Nat) : Prop :=
  i ≤ p.1 ∧ p.1 < p.2 ∧ p.2 ≤ j ∧ pe p.1 p.2 = true

/-- The inclusive integer range `[lo..hi]` as a list (empty when `hi < lo`);
models the C++ `for (int k = lo; k <= hi; ++k)` iteration pattern. -/
def intRange (lo hi : Int) : List Int :=
  (List.range (hi + 1 - lo).toNat).map fun t : Nat => lo + (t : Int)

/-! ## Pseudoknot main-layer extraction (pseudoknot_decomposition.cpp) -/

/-- Sorted list of the distinct residue indices appearing in a pair list
(pseudoknot_decomposition.cpp:20-30 `UniqueSortedResidues`). -/
def UniqueSortedResidues (pairs : List (Int × Int)) : List Int :=
  ((pairs.flatMap fun p => [p.1, p.2]).insertionSort (· ≤ ·)).dedup

/-- Index of a residue in the compressed coordinate system
(pseudoknot_decomposition.cpp:32-46 `CompressPairs`, the `hash` map). -/
def residueIndex (inv : List Int) (r : Int) : Nat := inv.indexOf r

/-- Compress residue indices to `0…L-1`
(pseudoknot_decomposition.cpp:32-46 `CompressPairs`). -/
def CompressPairs (pairs : List (Int × Int)) : List (Nat × Nat) :=
  let inv := UniqueSortedResidues pairs
  pairs.map fun p => (residueIndex inv p.1, residueIndex inv p.2)

/-- Map compressed pairs back to original residue numbering
(pseudoknot_decomposition.cpp:48-56 `DecompressPairs`). -/
def DecompressPairs (ps : List (Nat × Nat)) (inv : List Int) : List (Int × Int) :=
  ps.map fun p => (inv.getD p.1 0, inv.getD p.2 0)

/-- Membership test of an unordered pair in the compressed pair set
(pseudoknot_decomposition.cpp:68-72 `pair_set` with `PairKey`). -/
def pairExists (ps : List (Nat × Nat)) (i j : Nat) : Bool :=
  ps.any fun p => min p.1 p.2 == min i j && max p.1 p.2 == max i j

/-- Fuel-indexed Nussinov table γ
(pseudoknot_decomposition.cpp:85-100; `fuel ≥ j - i` reproduces the table,
see `gammaAux_stable`).  The four maximands are: skip left, skip right,
diagonal (plus one when the pair `(i,j)` exists), and every split
`γ(i,k) + γ(k+1,j)` for `k ∈ [i, j)`. -/
def gammaAux (pe : Nat → Nat → Bool) : Nat → Nat → Nat → Nat
  | 0, _, _ => 0
  | fuel+1, i, j =>
    if j ≤ i then 0
    else
      let below := max (gammaAux pe fuel (i+1) j) (gammaAux pe fuel i (j-1))
      let diag := gammaAux pe fuel (i+1) (j-1)
      let withPair := if pe i j then diag + 1 else diag
      let split := ((List.range (j - i)).map fun t =>
        gammaAux pe fuel i (i+t) + gammaAux pe fuel (i+t+1) j).foldr max 0
      max (max below withPair) split

/-- The Nussinov table γ(i,j) (pseudoknot_decomposition.cpp:85-100). -/
def gammaFn (pe : Nat → Nat → Bool) (i j : Nat) : Nat :=
  gammaAux pe (j - i) i j

/-- State of the backtrace: `route` is the list of residue indices already
emitted as pair endpoints (the `route` vector of the source, which marks
emitted endpoints with brackets), `layer` the emitted pairs in order. -/
structure TraceState where
  route : List Nat
  layer : List (Nat × Nat)
deriving DecidableEq

/-- 3^(size of the interval); the termination measure of one worklist node. -/
def nodeMeasure (n : Nat × Nat) : Nat := 3 ^ (n.2 + 1 - n.1)

/-- Termination measure of the whole worklist. -/
def traceMeasure (stack : List (Nat × Nat)) : Nat :=
  (stack.map nodeMeasure).sum

/-- A worklist node `(i, j)` viewed as the inclusive index interval it may
still emit pairs into. -/
def inSeg (n : Nat × Nat) (x : Nat) : Prop := n.1 ≤ x ∧ x ≤ n.2

/-- Invariant of the backtrace worklist
(pseudoknot_decomposition.cpp:102-140): the emitted pairs plus the γ-mass
remaining on the stack account for `G`; emitted pairs are existing, sorted,
pairwise compatible; the `route` marks are exactly the emitted endpoints;
live intervals are pairwise disjoint; and every live interval is either
strictly inside an emitted pair or disjoint from its closed span. -/
structure TraceInv (pe : Nat → Nat → Bool) (G : Nat) (stack : List (Nat × Nat))
    (st : TraceState) : Prop where
  count : st.layer.length + (stack.map fun n => gammaFn pe n.1 n.2).sum = G
  layer_ok : ∀ p ∈ st.layer, p.1 < p.2 ∧ pe p.1 p.2 = true
  layer_compat : st.layer.Pairwise Compat
  route_iff : ∀ x, x ∈ st.route ↔ ∃ p ∈ st.layer, p.1 = x ∨ p.2 = x
  stack_disj : stack.Pairwise fun m n => ∀ x, inSeg m x → ¬ inSeg n x
  stack_layer : ∀ n ∈ stack, ∀ p ∈ st.layer,
    (∀ x, inSeg n x → p.1 < x ∧ x < p.2) ∨ (∀ x, inSeg n x → ¬ (p.1 ≤ x ∧ x ≤ p.2))

/-- Fuel-indexed backtrace worklist
(pseudoknot_decomposition.cpp:102-140).  Cases in source order:
discard empty interval; skip left; skip right; emit the pair `(i,j)` when
it exists, accounts for γ, and neither endpoint was emitted; otherwise
split at the first matching `k`.  `fuel ≥ traceMeasure stack` reproduces
the source loop, see `traceAux_stable`. -/
def traceAux (pe : Nat → Nat → Bool) : Nat → List (Nat × Nat) → TraceState → TraceState
  | 0, _, st => st
  | _+1, [], st => st
  | fuel+1, (i, j) :: stack, st =>
    if j ≤ i then traceAux pe fuel stack st
    else if gammaFn pe (i+1) j = gammaFn pe i j then
      traceAux pe fuel ((i+1, j) :: stack) st
    else if gammaFn pe i (j-1) = gammaFn pe i j then
      traceAux pe fuel ((i, j-1) :: stack) st
    else if pe i j = true ∧ gammaFn pe (i+1) (j-1) + 1 = gammaFn pe i j ∧
        i ∉ st.route ∧ j ∉ st.route then
      traceAux pe fuel ((i+1, j-1) :: stack) ⟨i :: j :: st.route, st.layer ++ [(i, j)]⟩
    else
      match (List.range (j - i)).find? (fun t =>
          gammaFn pe i (i+t) + gammaFn pe (i+t+1) j == gammaFn pe i j) with
      | some t => traceAux pe fuel ((i, i+t) :: (i+t+1, j) :: stack) st
      | none => traceAux pe fuel stack st

/-- Extract a maximum non-crossing layer from a pair list
(pseudoknot_decomposition.cpp:58-143 `ExtractMainLayerPairs`):
compress, fill γ, backtrace, decompress. -/
def ExtractMainLayerPairs (pairs : List (Int × Int)) : List (Int × Int) :=
  if pairs = [] then []
  else
    let inv := UniqueSortedResidues pairs
    let compressed := CompressPairs pairs
    let L := inv.length
    let pe := pairExists compressed
    let stack0 : List (Nat × Nat) := [(0, L - 1)]
    (traceAux pe (traceMeasure stack0) stack0 ⟨[], []⟩).layer.map
      fun p => (inv.getD p.1 0, inv.getD p.2 0)

/-- Main-layer extraction on tagged base pairs
(pseudoknot_decomposition.cpp:147-180 `ExtractMainLayerFromBasePairs`):
throws on self-paired input, sorts each pair, runs the extractor and
restores each returned pair's tag from its first occurrence in the input. -/
def ExtractMainLayerFromBasePairs (base_pairs : List BasePair) :
    Except String (List BasePair) :=
  if base_pairs = [] then .ok []
  else if base_pairs.any (fun bp => bp.i == bp.j) then
    .error "Base pair cannot be self-paired"
  else
    let pairs := base_pairs.map normBP
    let layer := ExtractMainLayerPairs pairs
    .ok (layer.map fun p =>
      let t := ((base_pairs.find? fun bp => normBP bp == p).map
        BasePair.bp_type).getD BPType.unclassified
      ⟨p.1, p.2, t⟩)

/-- Public wrapper (entanglement.cpp:225-230 `ExtractMainLayer`). -/
def ExtractMainLayer (base_pairs : List BasePair) : Except String (List BasePair) :=
  if base_pairs = [] then .ok []
  else ExtractMainLayerFromBasePairs base_pairs

/-- The compressed layer computed by the backtrace, before decompression
(the `layer` vector at pseudoknot_decomposition.cpp:142). -/
def layerOf (pairs : List (Int × Int)) : List (Nat × Nat) :=
  (traceAux (pairExists (CompressPairs pairs))
    (traceMeasure [(0, (UniqueSortedResidues pairs).length - 1)])
    [(0, (UniqueSortedResidues pairs).length - 1)] ⟨[], []⟩).layer

/-- The sorted pair list handed to the extractor by
`ExtractMainLayerFromBasePairs`. -/
def pairsOf (P : List BasePair) : List (Int × Int) := P.map normBP

/-- `Except.isOk` as a plain definition. -/
def exceptOk {α : Type} (e : Except String α) : Bool :=
  match e with
  | .ok _ => true
  | .error _ => false

/-- The error cases of `BuildLoops`/`BuildPairMap` (spec §7): the input is
well formed iff `n_res` is positive, every endpoint is in `[1..n_res]`, no
pair is self-paired, and no residue occurs in two pairs. -/
def WellFormedInput (base_pairs : List BasePair) (n_res : Int) : Prop :=
  0 < n_res ∧
  (∀ bp ∈ base_pairs, 0 < bp.i ∧ 0 < bp.j ∧ bp.i ≤ n_res ∧ bp.j ≤ n_res ∧ bp.i ≠ bp.j) ∧
  base_pairs.Pairwise EndpointDisjoint

instance (base_pairs : List BasePair) (n_res : Int) :
    Decidable (WellFormedInput base_pairs n_res) := by
  unfold WellFormedInput
  infer_instance

/-! ## Pair map and loop construction (entanglement.cpp, loop_utils.h) -/

/-- Build the residue → partner map, validating the input
(entanglement.cpp:13-31 `BuildPairMap`; identical in entanglement_core.cpp
and loop_utils.h).  The map sends unpaired residues to 0. -/
def BuildPairMap (base_pairs : List BasePair) (n_res : Int) :
    Except String (Int → Int) :=
  base_pairs.foldlM (fun pm bp =>
    if bp.i ≤ 0 ∨ bp.j ≤ 0 ∨ bp.i > n_res ∨ bp.j > n_res then
      .error "Base pair index out of range"
    else if bp.i = bp.j then
      .error "Base pair cannot be self-paired"
    else
      let i := min bp.i bp.j
      let j := max bp.i bp.j
      if pm i ≠ 0 ∨ pm j ≠ 0 then
        .error "Residue paired multiple times"
      else
        .ok (fun r => if r = i then j else if r = j then i else pm r))
    (fun _ => 0)

/-- Unpaired residues in the inclusive interval `[start..stop]`
(entanglement.cpp:38-46 `CollectUnpaired`). -/
def CollectUnpaired (pm : Int → Int) (start stop : Int) : List Int :=
  (intRange start stop).filter fun k => pm k == 0

/-- Immediate child pairs inside `(i, j)` found by a depth-counting scan
(entanglement.cpp:52-70 `FindChildPairs`). -/
def FindChildPairs (pm : Int → Int) (i j : Int) : List BasePair :=
  ((intRange (i+1) (j-1)).foldl (fun (acc : List BasePair × Int) idx =>
    if pm idx = 0 then acc
    else
      let partner := pm idx
      if idx < partner then
        ((if acc.2 = 0 then acc.1 ++ [⟨idx, partner, BPType.unclassified⟩] else acc.1),
         acc.2 + 1)
      else if idx > partner then (acc.1, acc.2 - 1)
      else acc)
    ([], 0)).1

/-- Classify the loop closed by `(i, j)`; returns its kind, boundary
residues and closing pairs (entanglement.cpp:76-105 `ClassifyLoop`). -/
def ClassifyLoop (pm : Int → Int) (i j : Int) :
    LoopKind × List Int × List BasePair :=
  let children := FindChildPairs pm i j
  let closing := BasePair.mk i j BPType.unclassified :: children
  match children with
  | [] => (LoopKind.hairpin, CollectUnpaired pm (i+1) (j-1), closing)
  | [c] =>
    let k := min c.i c.j
    let l := max c.i c.j
    (LoopKind.internal,
     CollectUnpaired pm (i+1) (k-1) ++ CollectUnpaired pm (l+1) (j-1), closing)
  | _ => (LoopKind.multi, CollectUnpaired pm (i+1) (j-1), closing)

/-- Build loops from base pairs (entanglement.cpp:189-223 `BuildLoops`):
reject non-positive `n_res`, optionally run the main-layer extractor, build
the validated pair map, then emit one loop per opening pair in order. -/
def BuildLoops (base_pairs : List BasePair) (n_res : Int)
    (options : LoopBuildOptions) : Except String (List Loop) :=
  if n_res ≤ 0 then .error "n_res must be positive"
  else
    (if options.main_layer_only then ExtractMainLayer base_pairs
     else .ok base_pairs).bind fun filtered =>
    (BuildPairMap filtered n_res).bind fun pm =>
    .ok (((intRange 1 n_res).foldl (fun (acc : List Loop × Int) i =>
      let j := pm i
      if j = 0 ∨ i > j then acc
      else
        let c := ClassifyLoop pm i j
        if c.1 = LoopKind.multi ∧ options.include_multi = false then acc
        else (acc.1 ++ [⟨acc.2, c.1, c.2.2, c.2.1⟩], acc.2 + 1))
      ([], 1)).1)

/-! ## Skip residues and boundary indices -/

/-- Skip residues of a loop, loop_utils.h:105-153 `BuildSkipResidues`:
hairpin `[i..j]`; internal `[i..k] ∪ [l..j]` (degenerate: `[i..j]`);
multi: the endpoints of every closing pair followed by `[min..max]`.
`INT_MAX`/`INT_MIN` of the source are the 32-bit limits. -/
def BuildSkipResidues (loop : Loop) : List Int :=
  match loop.closing_pairs with
  | [] => []
  | p0 :: rest =>
    if loop.kind = LoopKind.hairpin then
      intRange (min p0.i p0.j) (max p0.i p0.j)
    else if loop.kind = LoopKind.internal then
      match rest with
      | [] => intRange (min p0.i p0.j) (max p0.i p0.j)
      | p1 :: _ =>
        intRange (min p0.i p0.j) (min p1.i p1.j) ++
        intRange (max p1.i p1.j) (max p0.i p0.j)
    else if loop.kind = LoopKind.multi then
      let min_res := ((p0 :: rest).map fun p => min p.i p.j).foldl min (2^31 - 1)
      let max_res := ((p0 :: rest).map fun p => max p.i p.j).foldl max (-(2^31))
      let endpoints := (p0 :: rest).flatMap fun p => [min p.i p.j, max p.i p.j]
      endpoints ++ (if min_res ≤ max_res then intRange min_res max_res else [])
    else []

/-- Skip residues as computed by the anonymous-namespace copy inside
entanglement.cpp:141-176 (the variant used by that file's `BuildSurfaces`).
It has no multi-loop branch: multi (and unknown) loops fall through to the
empty list. -/
def BuildSkipResiduesLocal (loop : Loop) : List Int :=
  match loop.closing_pairs with
  | [] => []
  | p0 :: rest =>
    if loop.kind = LoopKind.hairpin then
      intRange (min p0.i p0.j) (max p0.i p0.j)
    else if loop.kind = LoopKind.internal then
      match rest with
      | [] => intRange (min p0.i p0.j) (max p0.i p0.j)
      | p1 :: _ =>
        intRange (min p0.i p0.j) (min p1.i p1.j) ++
        intRange (max p1.i p1.j) (max p0.i p0.j)
    else []

/-- `add_index`: append a boundary index unless out of range or already seen
(surface_builder.cpp:158-167 and entanglement.cpp:259-268; the `seen` array
is equivalent to membership in the accumulated list). -/
def AddIndex (n_res : Int) (acc : List Int) (res_index : Int) : List Int :=
  if res_index ≤ 0 ∨ res_index > n_res then acc
  else if res_index ∈ acc then acc
  else acc ++ [res_index]

/-- `add_range`: append the inclusive range `[start..stop]` through `AddIndex`
(surface_builder.cpp:180-187 and entanglement.cpp:301-308). -/
def AddRange (n_res : Int) (acc : List Int) (start stop : Int) : List Int :=
  (intRange start stop).foldl (AddIndex n_res) acc

/-- Boundary indices shared by the two constructions for non-multi loops
(surface_builder.cpp:189-217, entanglement.cpp:309-340). -/
def BoundaryIndicesNonMulti (loop : Loop) (n_res : Int) : List Int :=
  if loop.closing_pairs = [] then
    loop.boundary_residues.foldl (AddIndex n_res) []
  else if loop.kind = LoopKind.hairpin then
    match loop.closing_pairs with
    | [] => []
    | p0 :: _ => AddRange n_res [] (min p0.i p0.j) (max p0.i p0.j)
  else if loop.kind = LoopKind.internal then
    match loop.closing_pairs with
    | [] => []
    | [p0] => AddRange n_res [] (min p0.i p0.j) (max p0.i p0.j)
    | p0 :: p1 :: _ =>
      let i := min p0.i p0.j
      let j := max p0.i p0.j
      let h := min p1.i p1.j
      let l := max p1.i p1.j
      AddIndex n_res (AddIndex n_res
        (AddRange n_res (AddIndex n_res (AddIndex n_res
          (AddRange n_res [] i (h-1)) h) l) (l+1) (j-1)) i) j
  else
    loop.closing_pairs.foldl (fun acc p => AddIndex n_res (AddIndex n_res acc p.i) p.j)
      (loop.boundary_residues.foldl (AddIndex n_res) [])

/-- Ordered boundary indices per surface_builder.cpp:153-219
`BuildBoundaryIndices`: for a multi loop, the loop's boundary residues
followed by the endpoints of every closing pair. -/
def BuildBoundaryIndices (loop : Loop) (n_res : Int) : List Int :=
  if loop.kind = LoopKind.multi then
    loop.closing_pairs.foldl (fun acc p => AddIndex n_res (AddIndex n_res acc p.i) p.j)
      (loop.boundary_residues.foldl (AddIndex n_res) [])
  else BoundaryIndicesNonMulti loop n_res

/-- The branch-gap boundary construction of the `BuildSurfaces` in
entanglement.cpp:269-299: over the sorted closing pairs, find the first
pair whose left endpoint exceeds the smallest left endpoint `l`, and emit
`[l..i_branch-1]`, `i_branch`, `j_branch`; if no such branch pair is found
(`i_branch` stays 0 in the source), emit `l` and the first pair's right
endpoint. -/
def MultiBranchGap (n_res : Int) (pairs : List (Int × Int)) : List Int :=
  match pairs with
  | [] => []
  | first :: rest =>
    match (first :: rest).find? (fun p => first.1 < p.1) with
    | some br =>
      if 0 < br.1 then
        AddIndex n_res (AddIndex n_res (AddRange n_res [] first.1 (br.1 - 1)) br.1) br.2
      else
        AddIndex n_res (AddIndex n_res [] first.1) first.2
    | none => AddIndex n_res (AddIndex n_res [] first.1) first.2

/-- Ordered boundary indices per the `BuildSurfaces` in
entanglement.cpp:255-341 (multi case continued): sort the closing pairs and
apply the branch-gap construction above. -/
def BuildBoundaryIndicesEnt (loop : Loop) (n_res : Int) : List Int :=
  if loop.kind = LoopKind.multi then
    MultiBranchGap n_res ((loop.closing_pairs.map fun p => (min p.i p.j, max p.i p.j)).insertionSort
      (fun a b => a.1 < b.1 ∨ (a.1 = b.1 ∧ a.2 ≤ b.2)))
  else BoundaryIndicesNonMulti loop n_res

/-! ## Geometry over ℚ (geometry3d.cpp, geometry2d.cpp)

The `double` arithmetic of the claim-relevant code paths uses only
`+ - * /`, absolute value and comparisons, embedded here over `ℚ`. -/

/-- 3-D vector (geometry_types.h `Vec3`). -/
structure Vec3 where
  x : ℚ
  y : ℚ
  z : ℚ
deriving DecidableEq

/-- 2-D vector (geometry_types.h `Vec2`). -/
structure Vec2 where
  x : ℚ
  y : ℚ
deriving DecidableEq

/-- Vector sum (geometry3d.cpp `Add`). -/
def Addv (a b : Vec3) : Vec3 := ⟨a.x + b.x, a.y + b.y, a.z + b.z⟩

/-- Vector difference (geometry3d.cpp `Sub`). -/
def Subv (a b : Vec3) : Vec3 := ⟨a.x - b.x, a.y - b.y, a.z - b.z⟩

/-- Scalar multiple (geometry3d.cpp `Scale`). -/
def Scale (v : Vec3) (s : ℚ) : Vec3 := ⟨v.x * s, v.y * s, v.z * s⟩

/-- Dot product (geometry3d.cpp `Dot`). -/
def Dot (a b : Vec3) : ℚ := a.x * b.x + a.y * b.y + a.z * b.z

/-- Fitted plane frame (geometry3d.h `Plane`). -/
structure Plane where
  c : Vec3
  n_hat : Vec3
  e1 : Vec3
  e2 : Vec3
  valid : Bool
deriving DecidableEq

/-- Triangle in 3-D (geometry3d.h `Triangle`). -/
structure Triangle where
  a : Vec3
  b : Vec3
  c : Vec3
deriving DecidableEq

/-- Projected polygon (geometry2d.h `Polygon2D`). -/
structure Polygon2D where
  vertices : List Vec2
  valid : Bool
deriving DecidableEq

/-- Segment–plane intersection (geometry3d.cpp:172-201
`SegmentPlaneIntersection`); `none` models returning `false`. -/
def SegmentPlaneIntersection (a b : Vec3) (plane : Plane) (eps_plane : ℚ) :
    Option Vec3 :=
  if plane.valid = false then none
  else
    let d_a := Dot (Subv a plane.c) plane.n_hat
    let d_b := Dot (Subv b plane.c) plane.n_hat
    if d_a * d_b > 0 then none
    else if |d_a| < eps_plane ∨ |d_b| < eps_plane then none
    else
      let denom := d_a - d_b
      if |denom| ≤ 0 then none
      else
        let t := d_a / denom
        if t ≤ 0 ∨ t ≥ 1 then none
        else some (Addv a (Scale (Subv b a) t))

/-- The same intersection routine transcribed from the specification's
words (spec §4.7 step 2, plane+polygon branch), for the refinement
comparison of claim C9. -/
def SegmentPlaneSpec (a b : Vec3) (plane : Plane) (eps_plane : ℚ) :
    Option Vec3 :=
  let d_a := Dot (Subv a plane.c) plane.n_hat
  let d_b := Dot (Subv b plane.c) plane.n_hat
  if d_a * d_b > 0 ∨ |d_a| < eps_plane ∨ |d_b| < eps_plane then none
  else
    let t := d_a / (d_a - d_b)
    if t ≤ 0 ∨ t ≥ 1 then none
    else some (Addv a (Scale (Subv b a) t))

/-- Squared distance from a point to a 2-D segment
(geometry2d.cpp:9-35 `DistancePointSegmentSquared`). -/
def DistancePointSegmentSquared (p a b : Vec2) : ℚ :=
  let vx := b.x - a.x
  let vy := b.y - a.y
  let wx := p.x - a.x
  let wy := p.y - a.y
  let vv := vx * vx + vy * vy
  if vv ≤ 0 then (p.x - a.x) * (p.x - a.x) + (p.y - a.y) * (p.y - a.y)
  else
    let t := (wx * vx + wy * vy) / vv
    if t < 0 then (p.x - a.x) * (p.x - a.x) + (p.y - a.y) * (p.y - a.y)
    else if t > 1 then (p.x - b.x) * (p.x - b.x) + (p.y - b.y) * (p.y - b.y)
    else
      let projx := a.x + t * vx
      let projy := a.y + t * vy
      (p.x - projx) * (p.x - projx) + (p.y - projy) * (p.y - projy)

/-- Point-in-polygon with edge epsilon (geometry2d.cpp:119-142
`PointInPolygon2D`): any edge within `eps_polygon` counts as inside,
otherwise a horizontal-ray crossing parity test (with the source's `1e-12`
guard added to each edge's denominator). -/
def PointInPolygon2D (q : Vec2) (poly : Polygon2D) (eps_polygon : ℚ) : Bool :=
  if poly.valid = false ∨ poly.vertices.length < 3 then false
  else
    let n := poly.vertices.length
    let eps2 := eps_polygon * eps_polygon
    let onEdge := (List.range n).any fun k =>
      let a := poly.vertices.getD k ⟨0, 0⟩
      let b := poly.vertices.getD ((k+1) % n) ⟨0, 0⟩
      DistancePointSegmentSquared q a b ≤ eps2
    if onEdge then true
    else
      (List.range n).foldl (fun inside k =>
        let pk := poly.vertices.getD k ⟨0, 0⟩
        let pj := poly.vertices.getD ((k + n - 1) % n) ⟨0, 0⟩
        if ((pk.y > q.y) ≠ (pj.y > q.y)) ∧
            (q.x < (pj.x - pk.x) * (q.y - pk.y) / (pj.y - pk.y + 1/1000000000000) + pk.x)
        then !inside else inside) false

/-! ## Entanglement evaluation (entanglement.cpp) -/

/-- Per-residue coordinates (entanglement.h `ResidueCoord`). -/
structure ResidueCoord where
  res_index : Int
  atoms : List Vec3
deriving DecidableEq

/-- Loop surface (entanglement.h `Surface`). -/
structure Surface where
  loop_id : Int
  kind : LoopKind
  closing_pairs : List BasePair
  plane : Plane
  polygon : Polygon2D
  triangles : List Triangle
  skip_residues : List Int
deriving DecidableEq

/-- One piercing event (entanglement.h `HitInfo`, the fields set by
entanglement.cpp:458). -/
structure HitInfo where
  loop_id : Int
  segment_id : Int
  point : Vec3
deriving DecidableEq

/-- Evaluation result (entanglement.h `Result`). -/
structure Result where
  K : Int
  hits : List HitInfo
deriving DecidableEq

/-- Options of `EvaluateEntanglement` (entanglement.h `EvaluateOptions`;
the fields the evaluator can read). -/
structure EvaluateOptions where
  atom_index : Int := 0
  eps_plane : ℚ := 1/100
  eps_polygon : ℚ := 1/100
  eps_triangle : ℚ := 1/100000000

/-- Residue-indexed coordinate table (entanglement.cpp:107-138
`CoordMap`/`BuildCoordMap`; this file's copy has no finiteness filter). -/
structure CoordMap where
  n_res : Int
  coords : Int → Vec3
  has_coord : Int → Bool

/-- Build the coordinate table for one atom index
(entanglement.cpp:119-139 `BuildCoordMap`). -/
def BuildCoordMap (coords : List ResidueCoord) (atom_index : Int) : CoordMap :=
  let max_index := coords.foldl (fun m r => max m r.res_index) 0
  coords.foldl (fun map r =>
    if r.res_index ≤ 0 ∨ r.res_index > max_index then map
    else if atom_index < 0 ∨ atom_index ≥ (r.atoms.length : Int) then map
    else
      { map with
        coords := fun k => if k = r.res_index then r.atoms.getD atom_index.toNat ⟨0,0,0⟩
                           else map.coords k,
        has_coord := fun k => if k = r.res_index then true else map.has_coord k })
    ⟨max_index, fun _ => ⟨0,0,0⟩, fun _ => false⟩

/-- A backbone segment between residues `id` and `id+1`
(entanglement.cpp:113-117 `Segment`). -/
structure Segment where
  id : Int
  a : Vec3
  b : Vec3
deriving DecidableEq

/-- Backbone segments between consecutive residues with coordinates
(entanglement.cpp:373-380). -/
def BuildSegments (map : CoordMap) : List Segment :=
  (intRange 1 (map.n_res - 1)).filterMap fun i =>
    if map.has_coord i && map.has_coord (i+1) then
      some ⟨i, map.coords i, map.coords (i+1)⟩
    else none

/-- The deduplication key (entanglement.cpp:178-180 `HitKey`):
`(loop_id << 32) | uint32(segment_id)` over `int64_t`, i.e.
`loop_id * 2^32 + segment_id mod 2^32`. -/
def HitKey (loop_id segment_id : Int) : Int :=
  loop_id * 2^32 + segment_id % 2^32

/-- Accumulated evaluation state: recorded keys and hits
(entanglement.cpp:385, `hit_keys` and `result.hits`). -/
structure EvalState where
  hit_keys : List Int
  hits : List HitInfo
deriving DecidableEq

/-- Test one candidate segment against one surface
(entanglement.cpp:410-459): plane intersection, projection into the plane
frame, point-in-polygon, then key-deduplicated recording. -/
def ProcessSegment (surface : Surface) (options : EvaluateOptions)
    (st : EvalState) (segment : Segment) : EvalState :=
  match SegmentPlaneIntersection segment.a segment.b surface.plane options.eps_plane with
  | none => st
  | some intersection =>
    let d := Subv intersection surface.plane.c
    let q : Vec2 := ⟨Dot d surface.plane.e1, Dot d surface.plane.e2⟩
    if PointInPolygon2D q surface.polygon options.eps_polygon = false then st
    else
      let key := HitKey surface.loop_id segment.id
      if key ∈ st.hit_keys then st
      else ⟨key :: st.hit_keys, st.hits ++ [⟨surface.loop_id, segment.id, intersection⟩]⟩

/-- Process all segments against one surface (entanglement.cpp:386-460):
skip invalid surfaces; skip any segment whose endpoint residue is in the
surface's skip list (the skip mask restricted to `[1..n_res]`, which is
where all segment endpoints live). -/
def ProcessSurface (segments : List Segment) (options : EvaluateOptions)
    (st : EvalState) (surface : Surface) : EvalState :=
  if surface.plane.valid = false ∨ surface.polygon.valid = false then st
  else
    segments.foldl (fun st segment =>
      if segment.id ∈ surface.skip_residues ∨ (segment.id + 1) ∈ surface.skip_residues
      then st
      else ProcessSegment surface options st segment) st

/-- Invariant of the evaluation state (entanglement.cpp:385-460): every
recorded hit has its key in the key set, and the recorded hits are
pairwise distinct on `(loop_id, segment_id)`. -/
def HitsInv (st : EvalState) : Prop :=
  (∀ h ∈ st.hits, HitKey h.loop_id h.segment_id ∈ st.hit_keys) ∧
  st.hits.Pairwise (fun h1 h2 => h1.loop_id ≠ h2.loop_id ∨ h1.segment_id ≠ h2.segment_id)

/-- Evaluate entanglement (entanglement.cpp:365-468 `EvaluateEntanglement`). -/
def EvaluateEntanglement (coords : List ResidueCoord) (surfaces : List Surface)
    (options : EvaluateOptions) : Result :=
  if (BuildCoordMap coords options.atom_index).n_res ≤ 1 then ⟨0, []⟩
  else
    ⟨(surfaces.foldl
        (ProcessSurface (BuildSegments (BuildCoordMap coords options.atom_index)) options)
        ⟨[], []⟩).hits.length,
     (surfaces.foldl
        (ProcessSurface (BuildSegments (BuildCoordMap coords options.atom_index)) options)
        ⟨[], []⟩).hits⟩

/-! ## List helper lemmas -/

theorem le_foldr_max {l : List Nat} {a : Nat} (h : a ∈ l) : a ≤ l.foldr max 0 := by
  induction l with
  | nil => cases h
  | cons b t ih =>
    rcases List.mem_cons.1 h with rfl | h2
    · exact le_max_left _ _
    · exact le_trans (ih h2) (le_max_right _ _)

theorem foldr_max_cases (l : List Nat) : l.foldr max 0 = 0 ∨ l.foldr max 0 ∈ l := by
  induction l with
  | nil => exact Or.inl rfl
  | cons b t ih =>
    rcases max_cases b (t.foldr max 0) with ⟨h1, _⟩ | ⟨h1, h2⟩
    · exact Or.inr (by simp [h1])
    · rcases ih with h3 | h3
      · refine Or.inl ?_
        simp only [List.foldr_cons, h1, h3]
        omega
      · exact Or.inr (by simp [h1, h3])

theorem mem_intRange {lo hi x : Int} : x ∈ intRange lo hi ↔ lo ≤ x ∧ x ≤ hi := by
  unfold intRange
  rw [List.mem_map]
  constructor
  · rintro ⟨t, ht, rfl⟩
    have h1 : t < (hi + 1 - lo).toNat := List.mem_range.1 ht
    omega
  · rintro ⟨h1, h2⟩
    refine ⟨(x - lo).toNat, List.mem_range.2 (by omega), by omega⟩

theorem intRange_eq_cons {lo hi : Int} (h : lo ≤ hi) :
    intRange lo hi = lo :: intRange (lo + 1) hi := by
  unfold intRange
  have h1 : (hi + 1 - lo).toNat = ((hi + 1 - (lo + 1)).toNat) + 1 := by omega
  rw [h1, List.range_succ_eq_map]
  simp only [List.map_cons, List.map_map, Nat.cast_zero, add_zero, List.cons.injEq]
  refine ⟨trivial, ?_⟩
  apply List.map_congr_left
  intro t _
  simp only [Function.comp_apply]
  omega

theorem intRange_eq_nil {lo hi : Int} (h : hi < lo) : intRange lo hi = [] := by
  unfold intRange
  have h1 : (hi + 1 - lo).toNat = 0 := by omega
  rw [h1]
  rfl

theorem intRange_nodup (lo hi : Int) : (intRange lo hi).Nodup := by
  unfold intRange
  refine List.Nodup.map ?_ (List.nodup_range _)
  intro a b hab
  simp only at hab
  omega

/-! ## γ-table lemmas -/

theorem gammaAux_stable (pe : Nat → Nat → Bool) :
    ∀ (f g i j : Nat), j - i ≤ f → j - i ≤ g →
      gammaAux pe f i j = gammaAux pe g i j := by
  intro f
  induction f with
  | zero =>
    intro g i j hf _
    have hji : j ≤ i := by omega
    cases g with
    | zero => rfl
    | succ g => simp [gammaAux, hji]
  | succ f ih =>
    intro g i j hf hg
    by_cases hji : j ≤ i
    · cases g with
      | zero => simp [gammaAux, hji]
      | succ g => simp [gammaAux, hji]
    · cases g with
      | zero => omega
      | succ g =>
        simp only [gammaAux, if_neg hji]
        have e1 : gammaAux pe f (i+1) j = gammaAux pe g (i+1) j := by
          apply ih
          · omega
          · omega
        have e2 : gammaAux pe f i (j-1) = gammaAux pe g i (j-1) := by
          apply ih
          · omega
          · omega
        have e3 : gammaAux pe f (i+1) (j-1) = gammaAux pe g (i+1) (j-1) := by
          apply ih
          · omega
          · omega
        have e4 : ((List.range (j - i)).map fun t =>
            gammaAux pe f i (i+t) + gammaAux pe f (i+t+1) j) =
            ((List.range (j - i)).map fun t =>
            gammaAux pe g i (i+t) + gammaAux pe g (i+t+1) j) := by
          apply List.map_congr_left
          intro t ht
          have htlt : t < j - i := List.mem_range.1 ht
          have e5 : gammaAux pe f i (i+t) = gammaAux pe g i (i+t) := by
            apply ih
            · omega
            · omega
          have e6 : gammaAux pe f (i+t+1) j = gammaAux pe g (i+t+1) j := by
            apply ih
            · omega
            · omega
          rw [e5, e6]
        rw [e1, e2, e3, e4]

theorem gammaAux_eq_gammaFn (pe : Nat → Nat → Bool) {f i j : Nat} (h : j - i ≤ f) :
    gammaAux pe f i j = gammaFn pe i j :=
  gammaAux_stable pe f (j - i) i j h le_rfl

theorem gammaFn_of_le (pe : Nat → Nat → Bool) {i j : Nat} (h : j ≤ i) :
    gammaFn pe i j = 0 := by
  unfold gammaFn
  have h1 : j - i = 0 := by omega
  rw [h1]
  rfl

/-- The recurrence satisfied by γ on a proper interval. -/
theorem gammaFn_eq (pe : Nat → Nat → Bool) {i j : Nat} (h : i < j) :
    gammaFn pe i j =
      max (max (max (gammaFn pe (i+1) j) (gammaFn pe i (j-1)))
        (if pe i j then gammaFn pe (i+1) (j-1) + 1 else gammaFn pe (i+1) (j-1)))
      (((List.range (j - i)).map fun t =>
        gammaFn pe i (i+t) + gammaFn pe (i+t+1) j).foldr max 0) := by
  have h0 : gammaFn pe i j = gammaAux pe ((j - i - 1) + 1) i j :=
    (gammaAux_eq_gammaFn pe (by omega)).symm
  rw [h0]
  simp only [gammaAux, if_neg (by omega : ¬ j ≤ i)]
  rw [gammaAux_eq_gammaFn pe (by omega : j - (i+1) ≤ j - i - 1)]
  rw [gammaAux_eq_gammaFn pe (by omega : (j-1) - i ≤ j - i - 1)]
  rw [gammaAux_eq_gammaFn pe (by omega : (j-1) - (i+1) ≤ j - i - 1)]
  have e4 : ((List.range (j - i)).map fun t =>
      gammaAux pe (j - i - 1) i (i+t) + gammaAux pe (j - i - 1) (i+t+1) j) =
      ((List.range (j - i)).map fun t =>
      gammaFn pe i (i+t) + gammaFn pe (i+t+1) j) := by
    apply List.map_congr_left
    intro t ht
    have htlt : t < j - i := List.mem_range.1 ht
    rw [gammaAux_eq_gammaFn pe (by omega : (i+t) - i ≤ j - i - 1)]
    rw [gammaAux_eq_gammaFn pe (by omega : j - (i+t+1) ≤ j - i - 1)]
  rw [e4]

theorem gammaFn_le_left (pe : Nat → Nat → Bool) (i j : Nat) :
    gammaFn pe (i+1) j ≤ gammaFn pe i j := by
  by_cases h : i < j
  · rw [gammaFn_eq pe h]
    exact le_max_of_le_left (le_max_of_le_left (le_max_left _ _))
  · rw [gammaFn_of_le pe (by omega), gammaFn_of_le pe (by omega)]

theorem gammaFn_le_right (pe : Nat → Nat → Bool) (i j : Nat) :
    gammaFn pe i (j-1) ≤ gammaFn pe i j := by
  by_cases h : i < j
  · rw [gammaFn_eq pe h]
    exact le_max_of_le_left (le_max_of_le_left (le_max_right _ _))
  · rw [gammaFn_of_le pe (by omega)]
    by_cases h2 : j = 0
    · subst h2
      rw [gammaFn_of_le pe (by omega)]
    · rw [gammaFn_of_le pe (by omega)]

theorem gammaFn_pair_le (pe : Nat → Nat → Bool) {i j : Nat} (h : i < j)
    (hp : pe i j = true) : gammaFn pe (i+1) (j-1) + 1 ≤ gammaFn pe i j := by
  rw [gammaFn_eq pe h]
  refine le_max_of_le_left (le_max_of_le_right ?_)
  rw [hp]
  simp

theorem gammaFn_split_le (pe : Nat → Nat → Bool) {i j k : Nat}
    (h1 : i ≤ k) (h2 : k < j) :
    gammaFn pe i k + gammaFn pe (k+1) j ≤ gammaFn pe i j := by
  have hij : i < j := by omega
  rw [gammaFn_eq pe hij]
  refine le_max_of_le_right ?_
  apply le_foldr_max
  refine List.mem_map.2 ⟨k - i, List.mem_range.2 (by omega), ?_⟩
  have e : i + (k - i) = k := by omega
  rw [e]

theorem gammaFn_mono_left (pe : Nat → Nat → Bool) {a i j : Nat} (h : a ≤ i) :
    gammaFn pe i j ≤ gammaFn pe a j := by
  induction i with
  | zero =>
    have e : a = 0 := by omega
    subst e
    exact le_rfl
  | succ i ih =>
    by_cases h2 : a = i + 1
    · subst h2
      exact le_rfl
    · exact le_trans (gammaFn_le_left pe i j) (ih (by omega))

theorem gammaFn_mono_right (pe : Nat → Nat → Bool) {i j b : Nat} (h : j ≤ b) :
    gammaFn pe i j ≤ gammaFn pe i b := by
  induction b with
  | zero =>
    have e : j = 0 := by omega
    subst e
    exact le_rfl
  | succ b ih =>
    by_cases h2 : j = b + 1
    · subst h2
      exact le_rfl
    · have e : b = (b + 1) - 1 := by omega
      refine le_trans (ih (by omega)) ?_
      calc gammaFn pe i b = gammaFn pe i ((b+1)-1) := by rw [← e]
        _ ≤ gammaFn pe i (b+1) := gammaFn_le_right pe i (b+1)

/-- On a proper interval, γ is attained by one of the recurrence cases,
in a form matching the backtrace's case analysis. -/
theorem gammaFn_attained (pe : Nat → Nat → Bool) {i j : Nat} (h : i < j)
    (hA : gammaFn pe (i+1) j ≠ gammaFn pe i j)
    (hB : gammaFn pe i (j-1) ≠ gammaFn pe i j) :
    (pe i j = true ∧ gammaFn pe (i+1) (j-1) + 1 = gammaFn pe i j) ∨
    (∃ t < j - i, gammaFn pe i (i+t) + gammaFn pe (i+t+1) j = gammaFn pe i j) := by
  have hrec := gammaFn_eq pe h
  set A := gammaFn pe (i+1) j with hAdef
  set B := gammaFn pe i (j-1) with hBdef
  set W := if pe i j then gammaFn pe (i+1) (j-1) + 1 else gammaFn pe (i+1) (j-1)
    with hWdef
  set S := ((List.range (j - i)).map fun t =>
    gammaFn pe i (i+t) + gammaFn pe (i+t+1) j).foldr max 0 with hSdef
  have hAle : A ≤ gammaFn pe i j := gammaFn_le_left pe i j
  have hBle : B ≤ gammaFn pe i j := gammaFn_le_right pe i j
  have hmax : gammaFn pe i j = max (max (max A B) W) S := hrec
  have hdle : gammaFn pe (i+1) (j-1) ≤ A := by
    rw [hAdef]
    have e : j - 1 = j - 1 := rfl
    exact gammaFn_le_right pe (i+1) j
  rcases max_cases (max (max A B) W) S with ⟨h1, _⟩ | ⟨h1, _⟩
  · rw [h1] at hmax
    rcases max_cases (max A B) W with ⟨h2, _⟩ | ⟨h2, _⟩
    · rw [h2] at hmax
      rcases max_cases A B with ⟨h3, _⟩ | ⟨h3, _⟩
      · rw [h3] at hmax
        exact absurd hmax.symm hA
      · rw [h3] at hmax
        exact absurd hmax.symm hB
    · rw [h2] at hmax
      by_cases hp : pe i j = true
      · rw [hWdef, if_pos hp] at hmax
        exact Or.inl ⟨hp, hmax.symm⟩
      · rw [hWdef, if_neg hp] at hmax
        have : gammaFn pe i j ≤ A := hmax.le.trans hdle
        exact absurd (le_antisymm hAle this) hA
  · rw [h1] at hmax
    rcases foldr_max_cases ((List.range (j - i)).map fun t =>
        gammaFn pe i (i+t) + gammaFn pe (i+t+1) j) with h2 | h2
    · rw [← hSdef] at h2
      rw [h2] at hmax
      have hA0 : A = 0 := by omega
      exact absurd (by omega : A = gammaFn pe i j) hA
    · rw [← hSdef] at h2
      rcases List.mem_map.1 h2 with ⟨t, ht, hteq⟩
      exact Or.inr ⟨t, List.mem_range.1 ht, by rw [hteq, ← hmax]⟩

/-- Completeness of the Nussinov table: every compatible selection of
existing pairs inside `[i..j]` has size at most γ(i,j). -/
theorem gamma_upper (pe : Nat → Nat → Bool) :
    ∀ (n i j : Nat), j - i ≤ n → ∀ (Q : Finset (Nat × Nat)),
      (∀ p ∈ Q, PairOk pe i j p) → ((Q : Set (Nat × Nat)).Pairwise Compat) →
      Q.card ≤ gammaFn pe i j := by
  intro n
  induction n with
  | zero =>
    intro i j hn Q hok _
    have hQ : Q = ∅ := by
      refine Finset.eq_empty_of_forall_not_mem ?_
      intro p hp
      have h := hok p hp
      unfold PairOk at h
      omega
    simp [hQ]
  | succ n ih =>
    intro i j hn Q hok hpw
    by_cases hji : j ≤ i
    · have hQ : Q = ∅ := by
        refine Finset.eq_empty_of_forall_not_mem ?_
        intro p hp
        have h := hok p hp
        unfold PairOk at h
        omega
      simp [hQ]
    · push_neg at hji
      by_cases hEnd : ∃ p ∈ Q, p.2 = j
      · obtain ⟨p0, hp0Q, hp0j⟩ := hEnd
        obtain ⟨hp0i, hp0lt, hp0le, hp0pe⟩ := hok p0 hp0Q
        by_cases hk : p0.1 = i
        · -- the pair (i, j) itself is selected
          have hcard : Q.card = (Q.erase p0).card + 1 := by
            rw [Finset.card_erase_of_mem hp0Q]
            have : 0 < Q.card := Finset.card_pos.2 ⟨p0, hp0Q⟩
            omega
          have hok2 : ∀ p ∈ Q.erase p0, PairOk pe (i+1) (j-1) p := by
            intro p hp
            have hpQ : p ∈ Q := Finset.mem_of_mem_erase hp
            have hne : p ≠ p0 := Finset.ne_of_mem_erase hp
            have hc := hpw (Finset.mem_coe.2 hpQ) (Finset.mem_coe.2 hp0Q) hne
            obtain ⟨⟨d1, d2, d3, d4⟩, _⟩ := hc
            have ho := hok p hpQ
            unfold PairOk at ho ⊢
            rw [hk] at d1 d3
            rw [hp0j] at d2 d4
            exact ⟨by omega, ho.2.1, by omega, ho.2.2.2⟩
          have hpw2 : ((Q.erase p0 : Finset (Nat × Nat)) : Set (Nat × Nat)).Pairwise Compat :=
            hpw.mono (Finset.coe_subset.2 (Finset.erase_subset _ _))
          have hrec := ih (i+1) (j-1) (by omega) (Q.erase p0) hok2 hpw2
          have hpair : gammaFn pe (i+1) (j-1) + 1 ≤ gammaFn pe i j := by
            apply gammaFn_pair_le pe hji
            rw [← hk, ← hp0j]
            exact hp0pe
          omega
        · -- a pair (k, j) with i < k < j is selected: split at k
          have hklt : p0.1 < j := by omega
          have hkgt : i < p0.1 := by omega
          have hdich : ∀ p ∈ Q, p.1 < p0.1 → p.2 < p0.1 := by
            intro p hpQ hp1
            by_contra hge
            push_neg at hge
            have hne : p ≠ p0 := by
              intro he
              rw [he] at hp1
              omega
            have hc := hpw (Finset.mem_coe.2 hpQ) (Finset.mem_coe.2 hp0Q) hne
            obtain ⟨⟨_, _, d3, d4⟩, hnc⟩ := hc
            have ho := hok p hpQ
            unfold PairOk at ho
            apply hnc
            unfold CrossesN
            rw [hp0j] at d4 ⊢
            left
            refine ⟨hp1, by omega, by omega⟩
          have hsplit : ∀ p ∈ Q, ¬ p.2 < p0.1 → p0.1 ≤ p.1 := by
            intro p hpQ hp2
            by_contra hlt
            push_neg at hlt
            exact hp2 (hdich p hpQ hlt)
          have hcard : (Q.filter fun p => p.2 < p0.1).card +
              (Q.filter fun p => ¬ p.2 < p0.1).card = Q.card :=
            Finset.filter_card_add_filter_neg_card_eq_card _
          have hok1 : ∀ p ∈ Q.filter (fun p => p.2 < p0.1),
              PairOk pe i (p0.1 - 1) p := by
            intro p hp
            obtain ⟨hpQ, hplt⟩ := Finset.mem_filter.1 hp
            have ho := hok p hpQ
            unfold PairOk at ho ⊢
            exact ⟨ho.1, ho.2.1, by omega, ho.2.2.2⟩
          have hok2 : ∀ p ∈ Q.filter (fun p => ¬ p.2 < p0.1),
              PairOk pe p0.1 j p := by
            intro p hp
            obtain ⟨hpQ, hpge⟩ := Finset.mem_filter.1 hp
            have ho := hok p hpQ
            unfold PairOk at ho ⊢
            exact ⟨hsplit p hpQ hpge, ho.2.1, ho.2.2.1, ho.2.2.2⟩
          have h1 := ih i (p0.1 - 1) (by omega)
            (Q.filter fun p => p.2 < p0.1) hok1
            (hpw.mono (Finset.coe_subset.2 (Finset.filter_subset _ _)))
          have h2 := ih p0.1 j (by omega)
            (Q.filter fun p => ¬ p.2 < p0.1) hok2
            (hpw.mono (Finset.coe_subset.2 (Finset.filter_subset _ _)))
          have hsp : gammaFn pe i (p0.1 - 1) + gammaFn pe p0.1 j ≤ gammaFn pe i j := by
            have := gammaFn_split_le pe (i := i) (j := j) (k := p0.1 - 1)
              (by omega) (by omega)
            have he : p0.1 - 1 + 1 = p0.1 := by omega
            rw [he] at this
            exact this
          omega
      · -- no selected pair ends at j
        push_neg at hEnd
        have hok2 : ∀ p ∈ Q, PairOk pe i (j-1) p := by
          intro p hp
          have ho := hok p hp
          have hne := hEnd p hp
          unfold PairOk at ho ⊢
          exact ⟨ho.1, ho.2.1, by omega, ho.2.2.2⟩
        exact le_trans (ih i (j-1) (by omega) Q hok2 hpw)
          (gammaFn_le_right pe i j)

/-! ## Backtrace invariant -/

theorem traceMeasure_cons (n : Nat × Nat) (s : List (Nat × Nat)) :
    traceMeasure (n :: s) = nodeMeasure n + traceMeasure s := by
  simp [traceMeasure]

theorem nodeMeasure_pos (n : Nat × Nat) : 0 < nodeMeasure n :=
  pow_pos (by norm_num) _

/-- Shrinking the top worklist node to a subinterval with the same γ-value
preserves the invariant. -/
theorem TraceInv.shrink {pe : Nat → Nat → Bool} {G : Nat}
    {i j a b : Nat} {stack : List (Nat × Nat)} {st : TraceState}
    (h : TraceInv pe G ((i, j) :: stack) st)
    (hi : i ≤ a) (hj : b ≤ j) (hg : gammaFn pe a b = gammaFn pe i j) :
    TraceInv pe G ((a, b) :: stack) st := by
  obtain ⟨c1, c2, c3, c4, c5, c6⟩ := h
  rw [List.pairwise_cons] at c5
  refine ⟨?_, c2, c3, c4, ?_, ?_⟩
  · simp only [List.map_cons, List.sum_cons] at c1 ⊢
    rw [hg]
    exact c1
  · rw [List.pairwise_cons]
    refine ⟨?_, c5.2⟩
    intro n hn x hx
    refine c5.1 n hn x ?_
    unfold inSeg at hx ⊢
    simp only at hx ⊢
    omega
  · intro n hn p hp
    rcases List.mem_cons.1 hn with rfl | hn2
    · rcases c6 (i, j) (List.mem_cons_self _ _) p hp with hcase | hcase
      · left
        intro x hx
        refine hcase x ?_
        unfold inSeg at hx ⊢
        simp only at hx ⊢
        omega
      · right
        intro x hx
        refine hcase x ?_
        unfold inSeg at hx ⊢
        simp only at hx ⊢
        omega
    · exact c6 n (List.mem_cons_of_mem _ hn2) p hp

/-- Emitted endpoints never lie inside a live interval; in particular the
endpoints of the top node are unmarked. -/
theorem TraceInv.fresh {pe : Nat → Nat → Bool} {G : Nat}
    {i j x : Nat} {stack : List (Nat × Nat)} {st : TraceState}
    (h : TraceInv pe G ((i, j) :: stack) st)
    (hx : i ≤ x) (hxj : x ≤ j) : x ∉ st.route := by
  intro hmem
  obtain ⟨p, hp, hpe⟩ := (h.route_iff x).1 hmem
  have hlt := h.layer_ok p hp
  rcases h.stack_layer (i, j) (List.mem_cons_self _ _) p hp with hcase | hcase
  · have := hcase x ⟨hx, hxj⟩
    omega
  · have := hcase x ⟨hx, hxj⟩
    simp only [not_and] at this
    omega

/-- The backtrace invariant is preserved to the end of the worklist run. -/
theorem traceAux_inv (pe : Nat → Nat → Bool) (G : Nat) :
    ∀ (f : Nat) (stack : List (Nat × Nat)) (st : TraceState),
      traceMeasure stack ≤ f → TraceInv pe G stack st →
      TraceInv pe G [] (traceAux pe f stack st) := by
  intro f
  induction f with
  | zero =>
    intro stack st hm hinv
    cases stack with
    | nil => exact hinv
    | cons n s =>
      rw [traceMeasure_cons] at hm
      have := nodeMeasure_pos n
      omega
  | succ f ih =>
    intro stack st hm hinv
    cases stack with
    | nil => exact hinv
    | cons node s =>
      obtain ⟨i, j⟩ := node
      rw [traceMeasure_cons] at hm
      -- measure bookkeeping
      have hnode : nodeMeasure (i, j) = 3 ^ (j + 1 - i) := rfl
      by_cases h1 : j ≤ i
      · -- empty interval: discard the node
        rw [show traceAux pe (f+1) ((i, j) :: s) st = traceAux pe f s st from by
          simp [traceAux, h1]]
        refine ih s st (by have := nodeMeasure_pos (i, j); omega) ?_
        obtain ⟨c1, c2, c3, c4, c5, c6⟩ := hinv
        refine ⟨?_, c2, c3, c4, (List.pairwise_cons.1 c5).2, ?_⟩
        · simp only [List.map_cons, List.sum_cons] at c1
          rw [gammaFn_of_le pe h1] at c1
          omega
        · intro n hn p hp
          exact c6 n (List.mem_cons_of_mem _ hn) p hp
      · push_neg at h1
        -- the node is a proper interval: 3-power bookkeeping facts
        have hs1 : j + 1 - i = (j - i) + 1 := by omega
        have hpw1 : (3:Nat) ^ ((j - i) + 1) = 3 * 3 ^ (j - i) := by
          rw [pow_succ]
          ring
        have hpow_pos : 0 < (3:Nat) ^ (j - i) := pow_pos (by norm_num) _
        by_cases h2 : gammaFn pe (i+1) j = gammaFn pe i j
        · -- skip left
          rw [show traceAux pe (f+1) ((i, j) :: s) st = traceAux pe f ((i+1, j) :: s) st
            from by simp [traceAux, h1, h2]]
          refine ih _ _ ?_ (hinv.shrink (by omega) le_rfl h2)
          rw [traceMeasure_cons]
          have : nodeMeasure (i+1, j) = 3 ^ (j - i) := by
            unfold nodeMeasure
            simp only
            congr 1
            omega
          rw [this]
          rw [hnode, hs1, hpw1] at hm
          omega
        · by_cases h3 : gammaFn pe i (j-1) = gammaFn pe i j
          · -- skip right
            rw [show traceAux pe (f+1) ((i, j) :: s) st = traceAux pe f ((i, j-1) :: s) st
              from by simp [traceAux, h1, h2, h3]]
            refine ih _ _ ?_ (hinv.shrink le_rfl (by omega) h3)
            rw [traceMeasure_cons]
            have : nodeMeasure (i, j-1) = 3 ^ (j - i) := by
              unfold nodeMeasure
              simp only
              congr 1
              omega
            rw [this]
            rw [hnode, hs1, hpw1] at hm
            omega
          · by_cases h4 : pe i j = true ∧ gammaFn pe (i+1) (j-1) + 1 = gammaFn pe i j ∧
                i ∉ st.route ∧ j ∉ st.route
            · -- emit the pair (i, j)
              rw [show traceAux pe (f+1) ((i, j) :: s) st =
                  traceAux pe f ((i+1, j-1) :: s) ⟨i :: j :: st.route, st.layer ++ [(i, j)]⟩
                from by simp [traceAux, h1, h2, h3, h4]]
              obtain ⟨hpe, hdiag, _, _⟩ := h4
              obtain ⟨c1, c2, c3, c4, c5, c6⟩ := hinv
              rw [List.pairwise_cons] at c5
              -- compatibility of the new pair with every previously emitted pair
              have hcompat : ∀ p ∈ st.layer, Compat p (i, j) := by
                intro p hp
                have hlt := c2 p hp
                rcases c6 (i, j) (List.mem_cons_self _ _) p hp with hcase | hcase
                · have hI := hcase i ⟨le_rfl, by omega⟩
                  have hJ := hcase j ⟨by omega, le_rfl⟩
                  unfold Compat CrossesN
                  simp only
                  omega
                · have hI := hcase i ⟨le_rfl, by omega⟩
                  have hJ := hcase j ⟨by omega, le_rfl⟩
                  have hP1 := hcase p.1
                  have hP2 := hcase p.2
                  unfold inSeg at hP1 hP2
                  simp only [not_and] at hI hJ
                  unfold Compat CrossesN
                  simp only
                  by_cases hc1 : i ≤ p.1 ∧ p.1 ≤ j
                  · have := hP1 hc1
                    omega
                  · by_cases hc2 : i ≤ p.2 ∧ p.2 ≤ j
                    · have := hP2 hc2
                      omega
                    · omega
              refine ih _ _ ?_ ⟨?_, ?_, ?_, ?_, ?_, ?_⟩
              · -- measure decreases
                rw [traceMeasure_cons]
                have : nodeMeasure (i+1, j-1) = 3 ^ (j - i - 1) := by
                  unfold nodeMeasure
                  simp only
                  congr 1
                  omega
                rw [this]
                have hle : (3:Nat) ^ (j - i - 1) ≤ 3 ^ (j - i) :=
                  Nat.pow_le_pow_right (by norm_num) (by omega)
                rw [hnode, hs1, hpw1] at hm
                omega
              · -- count
                simp only [List.map_cons, List.sum_cons, List.length_append,
                  List.length_cons, List.length_nil] at c1 ⊢
                omega
              · -- layer_ok
                intro p hp
                rcases List.mem_append.1 hp with hp2 | hp2
                · exact c2 p hp2
                · rcases List.mem_singleton.1 hp2 with rfl
                  exact ⟨h1, hpe⟩
              · -- layer_compat
                rw [List.pairwise_append]
                refine ⟨c3, List.pairwise_singleton _ _, ?_⟩
                intro p hp q hq
                rcases List.mem_singleton.1 hq with rfl
                exact hcompat p hp
              · -- route_iff
                intro x
                simp only [List.mem_cons, List.mem_append, List.mem_singleton]
                constructor
                · rintro (rfl | rfl | hx)
                  · exact ⟨(x, j), Or.inr (Or.inl rfl), Or.inl rfl⟩
                  · exact ⟨(i, x), Or.inr (Or.inl rfl), Or.inr rfl⟩
                  · obtain ⟨p, hp, hpe2⟩ := (c4 x).1 hx
                    exact ⟨p, Or.inl hp, hpe2⟩
                · rintro ⟨p, hp | hp, hpe2⟩
                  · exact Or.inr (Or.inr ((c4 x).2 ⟨p, hp, hpe2⟩))
                  · rcases hp with rfl | hnil
                    · rcases hpe2 with h | h
                      · exact Or.inl h.symm
                      · exact Or.inr (Or.inl h.symm)
                    · exact absurd hnil (List.not_mem_nil _)
              · -- stack_disj
                rw [List.pairwise_cons]
                refine ⟨?_, c5.2⟩
                intro n hn x hx
                refine c5.1 n hn x ?_
                unfold inSeg at hx ⊢
                simp only at hx ⊢
                omega
              · -- stack_layer
                intro n hn p hp
                rcases List.mem_cons.1 hn with rfl | hn2
                · -- the new node (i+1, j-1)
                  rcases List.mem_append.1 hp with hp2 | hp2
                  · rcases c6 (i, j) (List.mem_cons_self _ _) p hp2 with hcase | hcase
                    · left
                      intro x hx
                      refine hcase x ?_
                      unfold inSeg at hx ⊢
                      simp only at hx ⊢
                      omega
                    · right
                      intro x hx
                      refine hcase x ?_
                      unfold inSeg at hx ⊢
                      simp only at hx ⊢
                      omega
                  · rcases List.mem_singleton.1 hp2 with rfl
                    left
                    intro x hx
                    unfold inSeg at hx
                    simp only at hx ⊢
                    omega
                · -- an old node
                  rcases List.mem_append.1 hp with hp2 | hp2
                  · exact c6 n (List.mem_cons_of_mem _ hn2) p hp2
                  · rcases List.mem_singleton.1 hp2 with rfl
                    right
                    intro x hx hcontra
                    refine c5.1 n hn2 x ?_ hx
                    unfold inSeg
                    simp only
                    exact hcontra
            · -- split: find the first matching k
              rcases hfind : (List.range (j - i)).find? (fun t =>
                  gammaFn pe i (i+t) + gammaFn pe (i+t+1) j == gammaFn pe i j)
                  with _ | t
              · -- no case fired: impossible under the invariant
                exfalso
                rcases gammaFn_attained pe h1 h2 h3 with ⟨hp, hd⟩ | ⟨t, ht, hteq⟩
                · refine h4 ⟨hp, hd, ?_, ?_⟩
                  · exact hinv.fresh le_rfl (by omega)
                  · exact hinv.fresh (by omega) le_rfl
                · have := List.find?_eq_none.1 hfind t (List.mem_range.2 ht)
                  simp only [beq_iff_eq] at this
                  exact this hteq
              · -- split at k = i + t
                have hpred := List.find?_some hfind
                have hmem := List.mem_of_find?_eq_some hfind
                simp only [beq_iff_eq] at hpred
                have htlt : t < j - i := List.mem_range.1 hmem
                rw [show traceAux pe (f+1) ((i, j) :: s) st =
                    traceAux pe f ((i, i+t) :: (i+t+1, j) :: s) st
                  from by simp [traceAux, h1, h2, h3, h4, hfind]]
                obtain ⟨c1, c2, c3, c4, c5, c6⟩ := hinv
                rw [List.pairwise_cons] at c5
                refine ih _ _ ?_ ⟨?_, c2, c3, c4, ?_, ?_⟩
                · -- measure decreases
                  rw [traceMeasure_cons, traceMeasure_cons]
                  have e1 : nodeMeasure (i, i+t) = 3 ^ (t + 1) := by
                    unfold nodeMeasure
                    simp only
                    congr 1
                    omega
                  have e2 : nodeMeasure (i+t+1, j) = 3 ^ (j - i - t) := by
                    unfold nodeMeasure
                    simp only
                    congr 1
                    omega
                  rw [e1, e2]
                  have hle1 : (3:Nat) ^ (t + 1) ≤ 3 ^ (j - i) :=
                    Nat.pow_le_pow_right (by norm_num) (by omega)
                  have hle2 : (3:Nat) ^ (j - i - t) ≤ 3 ^ (j - i) :=
                    Nat.pow_le_pow_right (by norm_num) (by omega)
                  rw [hnode, hs1, hpw1] at hm
                  omega
                · -- count
                  simp only [List.map_cons, List.sum_cons] at c1 ⊢
                  omega
                · -- stack_disj
                  rw [List.pairwise_cons, List.pairwise_cons]
                  refine ⟨?_, ?_, c5.2⟩
                  · intro n hn x hx
                    rcases List.mem_cons.1 hn with rfl | hn2
                    · unfold inSeg at hx ⊢
                      simp only at hx ⊢
                      omega
                    · refine c5.1 n hn2 x ?_
                      unfold inSeg at hx ⊢
                      simp only at hx ⊢
                      omega
                  · intro n hn x hx
                    refine c5.1 n hn x ?_
                    unfold inSeg at hx ⊢
                    simp only at hx ⊢
                    omega
                · -- stack_layer
                  intro n hn p hp
                  rcases List.mem_cons.1 hn with rfl | hn2
                  · rcases c6 (i, j) (List.mem_cons_self _ _) p hp with hcase | hcase
                    · left
                      intro x hx
                      refine hcase x ?_
                      unfold inSeg at hx ⊢
                      simp only at hx ⊢
                      omega
                    · right
                      intro x hx
                      refine hcase x ?_
                      unfold inSeg at hx ⊢
                      simp only at hx ⊢
                      omega
                  · rcases List.mem_cons.1 hn2 with rfl | hn3
                    · rcases c6 (i, j) (List.mem_cons_self _ _) p hp with hcase | hcase
                      · left
                        intro x hx
                        refine hcase x ?_
                        unfold inSeg at hx ⊢
                        simp only at hx ⊢
                        omega
                      · right
                        intro x hx
                        refine hcase x ?_
                        unfold inSeg at hx ⊢
                        simp only at hx ⊢
                        omega
                    · exact c6 n (List.mem_cons_of_mem _ hn3) p hp

/-! ## Residue compression -/

theorem usr_sorted (pairs : List (Int × Int)) :
    (UniqueSortedResidues pairs).Sorted (· < ·) := by
  unfold UniqueSortedResidues
  have h1 : ((pairs.flatMap fun p => [p.1, p.2]).insertionSort (· ≤ ·)).Sorted (· ≤ ·) :=
    List.sorted_insertionSort _ _
  have h2 := (h1.sublist (List.dedup_sublist _)).and
    (List.nodup_dedup ((pairs.flatMap fun p => [p.1, p.2]).insertionSort (· ≤ ·)))
  exact h2.imp fun h => lt_of_le_of_ne h.1 h.2

theorem usr_nodup (pairs : List (Int × Int)) :
    (UniqueSortedResidues pairs).Nodup :=
  List.nodup_dedup _

theorem usr_mem {pairs : List (Int × Int)} {r : Int} :
    r ∈ UniqueSortedResidues pairs ↔ ∃ p ∈ pairs, r = p.1 ∨ r = p.2 := by
  unfold UniqueSortedResidues
  rw [List.mem_dedup, (List.perm_insertionSort _ _).mem_iff, List.mem_flatMap]
  constructor
  · rintro ⟨p, hp, hr⟩
    rcases List.mem_cons.1 hr with h | h
    · exact ⟨p, hp, Or.inl h⟩
    · exact ⟨p, hp, Or.inr (List.mem_singleton.1 h)⟩
  · rintro ⟨p, hp, h | h⟩
    · exact ⟨p, hp, by simp [h]⟩
    · exact ⟨p, hp, by simp [h]⟩

theorem usr_getD_indexOf {pairs : List (Int × Int)} {a : Int}
    (h : a ∈ UniqueSortedResidues pairs) :
    (UniqueSortedResidues pairs).getD ((UniqueSortedResidues pairs).indexOf a) 0 = a := by
  have h1 : (UniqueSortedResidues pairs).indexOf a < (UniqueSortedResidues pairs).length :=
    List.indexOf_lt_length.2 h
  rw [List.getD_eq_getElem _ 0 h1]
  exact List.getElem_indexOf h1

theorem usr_indexOf_lt_length {pairs : List (Int × Int)} {a : Int}
    (h : a ∈ UniqueSortedResidues pairs) :
    (UniqueSortedResidues pairs).indexOf a < (UniqueSortedResidues pairs).length :=
  List.indexOf_lt_length.2 h

theorem usr_getD_lt_getD {pairs : List (Int × Int)} {k1 k2 : Nat}
    (h12 : k1 < k2) (h2 : k2 < (UniqueSortedResidues pairs).length) :
    (UniqueSortedResidues pairs).getD k1 0 < (UniqueSortedResidues pairs).getD k2 0 := by
  have h1 : k1 < (UniqueSortedResidues pairs).length := lt_trans h12 h2
  rw [List.getD_eq_getElem _ 0 h1, List.getD_eq_getElem _ 0 h2]
  exact List.pairwise_iff_getElem.1 (usr_sorted pairs) k1 k2 h1 h2 h12

theorem usr_indexOf_lt_iff {pairs : List (Int × Int)} {a b : Int}
    (ha : a ∈ UniqueSortedResidues pairs) (hb : b ∈ UniqueSortedResidues pairs) :
    (UniqueSortedResidues pairs).indexOf a < (UniqueSortedResidues pairs).indexOf b ↔
      a < b := by
  constructor
  · intro h
    have := usr_getD_lt_getD h (usr_indexOf_lt_length hb)
    rwa [usr_getD_indexOf ha, usr_getD_indexOf hb] at this
  · intro h
    rcases lt_trichotomy ((UniqueSortedResidues pairs).indexOf a)
        ((UniqueSortedResidues pairs).indexOf b) with hlt | heq | hgt
    · exact hlt
    · exfalso
      have : (UniqueSortedResidues pairs).getD ((UniqueSortedResidues pairs).indexOf a) 0 =
          (UniqueSortedResidues pairs).getD ((UniqueSortedResidues pairs).indexOf b) 0 := by
        rw [heq]
      rw [usr_getD_indexOf ha, usr_getD_indexOf hb] at this
      omega
    · exfalso
      have := usr_getD_lt_getD hgt (usr_indexOf_lt_length ha)
      rw [usr_getD_indexOf ha, usr_getD_indexOf hb] at this
      omega

/-! ## The compressed layer -/

theorem extract_eq_layerOf {pairs : List (Int × Int)} (hne : pairs ≠ []) :
    ExtractMainLayerPairs pairs = (layerOf pairs).map
      (fun p => ((UniqueSortedResidues pairs).getD p.1 0,
                 (UniqueSortedResidues pairs).getD p.2 0)) := by
  unfold ExtractMainLayerPairs layerOf
  rw [if_neg hne]

theorem layerOf_spec (pairs : List (Int × Int)) :
    (layerOf pairs).length =
      gammaFn (pairExists (CompressPairs pairs)) 0 ((UniqueSortedResidues pairs).length - 1) ∧
    (∀ p ∈ layerOf pairs, p.1 < p.2 ∧ pairExists (CompressPairs pairs) p.1 p.2 = true) ∧
    (layerOf pairs).Pairwise Compat := by
  set pe := pairExists (CompressPairs pairs) with hpe
  set L := (UniqueSortedResidues pairs).length with hL
  have hinit : TraceInv pe (gammaFn pe 0 (L-1)) [(0, L-1)] ⟨[], []⟩ := by
    refine ⟨?_, ?_, List.Pairwise.nil, ?_, ?_, ?_⟩
    · simp
    · intro p hp
      cases hp
    · intro x
      constructor
      · intro hx
        cases hx
      · rintro ⟨p, hp, _⟩
        cases hp
    · exact List.pairwise_singleton _ _
    · intro n _ p hp
      cases hp
  have h := traceAux_inv pe (gammaFn pe 0 (L-1)) (traceMeasure [(0, L-1)])
    [(0, L-1)] ⟨[], []⟩ le_rfl hinit
  have hcount := h.count
  simp only [List.map_nil, List.sum_nil] at hcount
  exact ⟨by rw [← hcount]; rfl, h.layer_ok, h.layer_compat⟩

theorem pairExists_iff {pairs : List (Int × Int)} {a b : Nat} :
    pairExists (CompressPairs pairs) a b = true ↔
    ∃ p ∈ pairs,
      min ((UniqueSortedResidues pairs).indexOf p.1)
        ((UniqueSortedResidues pairs).indexOf p.2) = min a b ∧
      max ((UniqueSortedResidues pairs).indexOf p.1)
        ((UniqueSortedResidues pairs).indexOf p.2) = max a b := by
  unfold pairExists CompressPairs residueIndex
  rw [List.any_eq_true]
  constructor
  · rintro ⟨cp, hcp, hbeq⟩
    rcases List.mem_map.1 hcp with ⟨p, hp, rfl⟩
    simp only [Bool.and_eq_true, beq_iff_eq] at hbeq
    exact ⟨p, hp, hbeq.1, hbeq.2⟩
  · rintro ⟨p, hp, h1, h2⟩
    refine ⟨((UniqueSortedResidues pairs).indexOf p.1,
      (UniqueSortedResidues pairs).indexOf p.2), List.mem_map.2 ⟨p, hp, rfl⟩, ?_⟩
    simp only [Bool.and_eq_true, beq_iff_eq]
    exact ⟨h1, h2⟩

theorem mem_pairsOf {P : List BasePair} {p : Int × Int} :
    p ∈ pairsOf P ↔ ∃ bp ∈ P, p = normBP bp := by
  unfold pairsOf
  rw [List.mem_map]
  constructor
  · rintro ⟨bp, hbp, rfl⟩
    exact ⟨bp, hbp, rfl⟩
  · rintro ⟨bp, hbp, rfl⟩
    exact ⟨bp, hbp, rfl⟩

theorem endpoint_mem_usr {P : List BasePair} {bp : BasePair} (h : bp ∈ P) :
    min bp.i bp.j ∈ UniqueSortedResidues (pairsOf P) ∧
    max bp.i bp.j ∈ UniqueSortedResidues (pairsOf P) := by
  constructor
  · exact usr_mem.2 ⟨normBP bp, mem_pairsOf.2 ⟨bp, h, rfl⟩, Or.inl rfl⟩
  · exact usr_mem.2 ⟨normBP bp, mem_pairsOf.2 ⟨bp, h, rfl⟩, Or.inr rfl⟩

/-- Decode one emitted compressed pair back to an input base pair. -/
theorem layer_elem_decode (P : List BasePair)
    (hself : ∀ bp ∈ P, bp.i ≠ bp.j) {q : Nat × Nat}
    (hq : q ∈ layerOf (pairsOf P)) :
    ∃ bp ∈ P,
      q.1 = (UniqueSortedResidues (pairsOf P)).indexOf (min bp.i bp.j) ∧
      q.2 = (UniqueSortedResidues (pairsOf P)).indexOf (max bp.i bp.j) ∧
      (UniqueSortedResidues (pairsOf P)).getD q.1 0 = min bp.i bp.j ∧
      (UniqueSortedResidues (pairsOf P)).getD q.2 0 = max bp.i bp.j := by
  obtain ⟨hlt, hpe⟩ := (layerOf_spec (pairsOf P)).2.1 q hq
  obtain ⟨p, hp, hmin, hmax⟩ := pairExists_iff.1 hpe
  obtain ⟨bp, hbp, rfl⟩ := mem_pairsOf.1 hp
  have hij : min bp.i bp.j < max bp.i bp.j := by
    have := hself bp hbp
    omega
  obtain ⟨hm1, hm2⟩ := endpoint_mem_usr hbp
  have hidx : (UniqueSortedResidues (pairsOf P)).indexOf (normBP bp).1 <
      (UniqueSortedResidues (pairsOf P)).indexOf (normBP bp).2 :=
    (usr_indexOf_lt_iff hm1 hm2).2 hij
  have hminq : min q.1 q.2 = q.1 := min_eq_left (le_of_lt hlt)
  have hmaxq : max q.1 q.2 = q.2 := max_eq_right (le_of_lt hlt)
  rw [hminq] at hmin
  rw [hmaxq] at hmax
  rw [min_eq_left (le_of_lt hidx)] at hmin
  rw [max_eq_right (le_of_lt hidx)] at hmax
  refine ⟨bp, hbp, hmin.symm, hmax.symm, ?_, ?_⟩
  · rw [← hmin]
    exact usr_getD_indexOf hm1
  · rw [← hmax]
    exact usr_getD_indexOf hm2

theorem usr_indexOf_eq_iff {pairs : List (Int × Int)} {a b : Int}
    (ha : a ∈ UniqueSortedResidues pairs) (hb : b ∈ UniqueSortedResidues pairs) :
    (UniqueSortedResidues pairs).indexOf a = (UniqueSortedResidues pairs).indexOf b ↔
      a = b := by
  constructor
  · intro h
    rcases lt_trichotomy a b with hlt | heq | hgt
    · have := (usr_indexOf_lt_iff ha hb).2 hlt
      omega
    · exact heq
    · have := (usr_indexOf_lt_iff hb ha).2 hgt
      omega
  · intro h
    rw [h]

/-- Crossing of two sorted residue pairs transfers to their compressed
images and back. -/
theorem crossesN_idx_iff {pairs : List (Int × Int)} {x1 y1 x2 y2 : Int}
    (hx1 : x1 ∈ UniqueSortedResidues pairs) (hy1 : y1 ∈ UniqueSortedResidues pairs)
    (hx2 : x2 ∈ UniqueSortedResidues pairs) (hy2 : y2 ∈ UniqueSortedResidues pairs)
    (h1 : x1 < y1) (h2 : x2 < y2) :
    CrossesN ((UniqueSortedResidues pairs).indexOf x1, (UniqueSortedResidues pairs).indexOf y1)
      ((UniqueSortedResidues pairs).indexOf x2, (UniqueSortedResidues pairs).indexOf y2) ↔
    Crosses (x1, y1) (x2, y2) := by
  unfold CrossesN Crosses
  simp only [min_eq_left (le_of_lt h1), max_eq_right (le_of_lt h1),
    min_eq_left (le_of_lt h2), max_eq_right (le_of_lt h2)]
  rw [usr_indexOf_lt_iff hx1 hx2, usr_indexOf_lt_iff hx2 hy1,
    usr_indexOf_lt_iff hy1 hy2, usr_indexOf_lt_iff hx2 hx1,
    usr_indexOf_lt_iff hx1 hy2, usr_indexOf_lt_iff hy2 hy1]

theorem pairsOf_ne_nil {P : List BasePair} (h : P ≠ []) : pairsOf P ≠ [] := by
  unfold pairsOf
  simp only [ne_eq, List.map_eq_nil_iff]
  exact h

/-- `ExtractMainLayerFromBasePairs` on valid input, in terms of the
pair-level extractor. -/
theorem fromBasePairs_ok (P : List BasePair) (hne : P ≠ [])
    (hself : ∀ bp ∈ P, bp.i ≠ bp.j) :
    ExtractMainLayerFromBasePairs P = .ok ((ExtractMainLayerPairs (pairsOf P)).map fun p =>
      ⟨p.1, p.2,
        ((P.find? fun bp => normBP bp == p).map BasePair.bp_type).getD
          BPType.unclassified⟩) := by
  unfold ExtractMainLayerFromBasePairs
  rw [if_neg hne, if_neg ?_]
  · rfl
  · simp only [List.any_eq_true, beq_iff_eq, not_exists, not_and]
    intro bp hbp
    exact hself bp hbp

/-- Claim C2: for any input without self-pairs, the extracted main layer
contains no two crossing pairs. -/
theorem extract_main_layer_noncrossing (P : List BasePair)
    (hself : ∀ bp ∈ P, bp.i ≠ bp.j) :
    ∃ O, ExtractMainLayer P = .ok O ∧
      O.Pairwise fun o1 o2 => ¬ Crosses (o1.i, o1.j) (o2.i, o2.j) := by
  by_cases hne : P = []
  · subst hne
    exact ⟨[], by simp [ExtractMainLayer], List.Pairwise.nil⟩
  · refine ⟨_, by rw [ExtractMainLayer, if_neg hne, fromBasePairs_ok P hne hself], ?_⟩
    rw [extract_eq_layerOf (pairsOf_ne_nil hne), List.map_map, List.pairwise_map]
    have hcompat := (layerOf_spec (pairsOf P)).2.2
    refine hcompat.imp_of_mem ?_
    intro q1 q2 hq1 hq2 hc
    obtain ⟨bp1, hbp1, e11, e12, d11, d12⟩ := layer_elem_decode P hself hq1
    obtain ⟨bp2, hbp2, e21, e22, d21, d22⟩ := layer_elem_decode P hself hq2
    simp only [Function.comp_apply]
    intro hcross
    apply hc.2
    rw [d11, d12, d21, d22] at hcross
    have hs1 : min bp1.i bp1.j < max bp1.i bp1.j := by
      have := hself bp1 hbp1
      omega
    have hs2 : min bp2.i bp2.j < max bp2.i bp2.j := by
      have := hself bp2 hbp2
      omega
    obtain ⟨hm11, hm12⟩ := endpoint_mem_usr hbp1
    obtain ⟨hm21, hm22⟩ := endpoint_mem_usr hbp2
    have hiff := crossesN_idx_iff hm11 hm12 hm21 hm22 hs1 hs2
    have hq1eq : q1 = ((UniqueSortedResidues (pairsOf P)).indexOf (min bp1.i bp1.j),
        (UniqueSortedResidues (pairsOf P)).indexOf (max bp1.i bp1.j)) :=
      Prod.ext e11 e12
    have hq2eq : q2 = ((UniqueSortedResidues (pairsOf P)).indexOf (min bp2.i bp2.j),
        (UniqueSortedResidues (pairsOf P)).indexOf (max bp2.i bp2.j)) :=
      Prod.ext e21 e22
    rw [hq1eq, hq2eq]
    exact hiff.2 hcross

/-- Claim C1 (amended): for input whose residues are each paired at most
once (and never with themselves), the extractor returns a subset of the
input of maximum cardinality among all non-crossing subsets. -/
theorem extract_main_layer_maximal (P : List BasePair)
    (hself : ∀ bp ∈ P, bp.i ≠ bp.j)
    (hdisj : P.Pairwise EndpointDisjoint) :
    ∃ O, ExtractMainLayer P = .ok O ∧
      (∀ o ∈ O, ∃ bp ∈ P, normBP o = normBP bp) ∧
      (∀ Q : Finset (Int × Int), (∀ q ∈ Q, ∃ bp ∈ P, q = normBP bp) →
        ((Q : Set (Int × Int)).Pairwise fun q1 q2 => ¬ Crosses q1 q2) →
        Q.card ≤ O.length) := by
  by_cases hne : P = []
  · subst hne
    refine ⟨[], by simp [ExtractMainLayer], by simp, ?_⟩
    intro Q hQ _
    have : Q = ∅ := by
      refine Finset.eq_empty_of_forall_not_mem ?_
      intro q hq
      obtain ⟨bp, hbp, _⟩ := hQ q hq
      cases hbp
    simp [this]
  · refine ⟨_, by rw [ExtractMainLayer, if_neg hne, fromBasePairs_ok P hne hself],
      ?_, ?_⟩
    · -- every output pair comes from the input
      intro o ho
      rw [extract_eq_layerOf (pairsOf_ne_nil hne), List.map_map] at ho
      rcases List.mem_map.1 ho with ⟨q, hq, rfl⟩
      obtain ⟨bp, hbp, _, _, d1, d2⟩ := layer_elem_decode P hself hq
      refine ⟨bp, hbp, ?_⟩
      have hs : min bp.i bp.j < max bp.i bp.j := by
        have := hself bp hbp
        omega
      unfold normBP
      simp only [Function.comp_apply, d1, d2, Prod.mk.injEq]
      constructor
      · omega
      · omega
    · -- maximality
      intro Q hQ hQnc
      have hlen : ((ExtractMainLayerPairs (pairsOf P)).map fun p =>
          (⟨p.1, p.2,
            ((P.find? fun bp => normBP bp == p).map BasePair.bp_type).getD
              BPType.unclassified⟩ : BasePair)).length =
          gammaFn (pairExists (CompressPairs (pairsOf P))) 0
            ((UniqueSortedResidues (pairsOf P)).length - 1) := by
        rw [List.length_map, extract_eq_layerOf (pairsOf_ne_nil hne), List.length_map]
        exact (layerOf_spec (pairsOf P)).1
      rw [hlen]
      -- compress Q
      set inv := UniqueSortedResidues (pairsOf P) with hinv
      set cmp := fun q : Int × Int => (inv.indexOf q.1, inv.indexOf q.2) with hcmp
      have hQmem : ∀ q ∈ Q, q.1 ∈ inv ∧ q.2 ∈ inv ∧ q.1 < q.2 := by
        intro q hq
        obtain ⟨bp, hbp, rfl⟩ := hQ q hq
        obtain ⟨h1, h2⟩ := endpoint_mem_usr hbp
        have := hself bp hbp
        exact ⟨h1, h2, by unfold normBP; simp only; omega⟩
      have hinj : Set.InjOn cmp Q := by
        intro q hq q2 hq2 heq
        obtain ⟨ha1, ha2, _⟩ := hQmem q (Finset.mem_coe.1 hq)
        obtain ⟨hb1, hb2, _⟩ := hQmem q2 (Finset.mem_coe.1 hq2)
        have h1 := congrArg Prod.fst heq
        have h2 := congrArg Prod.snd heq
        simp only [hcmp] at h1 h2
        have e1 := (usr_indexOf_eq_iff ha1 hb1).1 h1
        have e2 := (usr_indexOf_eq_iff ha2 hb2).1 h2
        exact Prod.ext e1 e2
      rw [← Finset.card_image_of_injOn hinj]
      apply gamma_upper (pairExists (CompressPairs (pairsOf P)))
        ((UniqueSortedResidues (pairsOf P)).length - 1) 0
        ((UniqueSortedResidues (pairsOf P)).length - 1) le_rfl
      · -- PairOk for each compressed selected pair
        intro p hp
        rcases Finset.mem_image.1 hp with ⟨q, hq, rfl⟩
        obtain ⟨bp, hbp, rfl⟩ := hQ q hq
        obtain ⟨h1, h2, hlt⟩ := hQmem (normBP bp) hq
        unfold PairOk
        refine ⟨Nat.zero_le _, ?_, ?_, ?_⟩
        · exact (usr_indexOf_lt_iff h1 h2).2 hlt
        · have := usr_indexOf_lt_length h2
          simp only [hcmp, hinv]
          omega
        · refine pairExists_iff.2 ⟨normBP bp, mem_pairsOf.2 ⟨bp, hbp, rfl⟩, rfl, rfl⟩
      · -- pairwise compatibility of the compressed selection
        intro x hx y hy hxy
        rcases Finset.mem_coe.1 (by exact hx) with hx2
        rcases Finset.mem_image.1 hx2 with ⟨q1, hq1, rfl⟩
        rcases Finset.mem_coe.1 (by exact hy) with hy2
        rcases Finset.mem_image.1 hy2 with ⟨q2, hq2, rfl⟩
        have hqne : q1 ≠ q2 := by
          intro he
          rw [he] at hxy
          exact hxy rfl
        obtain ⟨bp1, hbp1, he1⟩ := hQ q1 hq1
        obtain ⟨bp2, hbp2, he2⟩ := hQ q2 hq2
        obtain ⟨ha1, ha2, hl1⟩ := hQmem q1 hq1
        obtain ⟨hb1, hb2, hl2⟩ := hQmem q2 hq2
        have hbpne : bp1 ≠ bp2 := by
          intro he
          rw [he1, he2, he] at hqne
          exact hqne rfl
        have hed : EndpointDisjoint bp1 bp2 := by
          refine List.Pairwise.forall ?_ hdisj hbp1 hbp2 hbpne
          intro a b hab
          unfold EndpointDisjoint at hab ⊢
          omega
        have hne12 : q1.1 ≠ q2.1 ∧ q1.1 ≠ q2.2 ∧ q1.2 ≠ q2.1 ∧ q1.2 ≠ q2.2 := by
          unfold EndpointDisjoint at hed
          rw [he1, he2]
          unfold normBP
          simp only
          omega
        constructor
        · -- endpoints distinct after compression
          simp only [hcmp]
          refine ⟨?_, ?_, ?_, ?_⟩
          · intro h
            exact hne12.1 ((usr_indexOf_eq_iff ha1 hb1).1 h)
          · intro h
            exact hne12.2.1 ((usr_indexOf_eq_iff ha1 hb2).1 h)
          · intro h
            exact hne12.2.2.1 ((usr_indexOf_eq_iff ha2 hb1).1 h)
          · intro h
            exact hne12.2.2.2 ((usr_indexOf_eq_iff ha2 hb2).1 h)
        · -- non-crossing after compression
          have hnc := hQnc (Finset.mem_coe.2 hq1) (Finset.mem_coe.2 hq2) hqne
          intro hcn
          apply hnc
          have hiff := crossesN_idx_iff ha1 ha2 hb1 hb2 hl1 hl2
          have : Crosses (q1.1, q1.2) (q2.1, q2.2) := hiff.1 hcn
          simpa using this

/-- Claim C10: the tagged extractor throws the self-pair error exactly when
some input pair is self-paired, and returns normally otherwise. -/
theorem extract_self_pair_error (P : List BasePair) :
    (ExtractMainLayerFromBasePairs P = .error "Base pair cannot be self-paired" ↔
      ∃ bp ∈ P, bp.i = bp.j) ∧
    (exceptOk (ExtractMainLayerFromBasePairs P) = true ↔ ∀ bp ∈ P, bp.i ≠ bp.j) := by
  unfold ExtractMainLayerFromBasePairs
  by_cases hne : P = []
  · subst hne
    rw [if_pos rfl]
    constructor
    · constructor
      · intro h
        cases h
      · rintro ⟨bp, hbp, _⟩
        cases hbp
    · constructor
      · intro _ bp hbp
        cases hbp
      · intro _
        rfl
  · rw [if_neg hne]
    by_cases hany : P.any (fun bp => bp.i == bp.j) = true
    · rw [if_pos hany]
      rw [List.any_eq_true] at hany
      simp only [beq_iff_eq] at hany
      constructor
      · exact ⟨fun _ => hany, fun _ => rfl⟩
      · constructor
        · intro h
          cases h
        · intro h
          obtain ⟨bp, hbp, he⟩ := hany
          exact absurd he (h bp hbp)
    · rw [if_neg hany]
      rw [List.any_eq_true] at hany
      simp only [beq_iff_eq] at hany
      push_neg at hany
      constructor
      · constructor
        · intro h
          cases h
        · rintro ⟨bp, hbp, he⟩
          exact absurd he (hany bp hbp)
      · exact ⟨fun _ => hany, fun _ => rfl⟩

/-- Counterexample to C1 as stated: the input `[(1,5), (1,7)]` is itself a
non-crossing subset of cardinality 2 (shared endpoints do not cross under
the specification's definition), yet the extractor returns only one pair.
-/
theorem extract_main_layer_maximal_cex :
    ExtractMainLayer [⟨1, 5, BPType.unclassified⟩, ⟨1, 7, BPType.unclassified⟩] =
      .ok [⟨1, 5, BPType.unclassified⟩] ∧
    ([⟨1, 5, BPType.unclassified⟩, ⟨1, 7, BPType.unclassified⟩] : List BasePair).Pairwise
      (fun o1 o2 => ¬ Crosses (o1.i, o1.j) (o2.i, o2.j)) := by
  constructor
  · decide
  · decide

/-- Witness for the amended C1 at a concrete input. -/
theorem extract_main_layer_maximal_witness :
    ∃ O, ExtractMainLayer [⟨1, 8, BPType.unclassified⟩, ⟨2, 7, BPType.unclassified⟩] =
        .ok O ∧
      (∀ o ∈ O, ∃ bp ∈ ([⟨1, 8, BPType.unclassified⟩, ⟨2, 7, BPType.unclassified⟩] :
        List BasePair), normBP o = normBP bp) ∧
      (∀ Q : Finset (Int × Int),
        (∀ q ∈ Q, ∃ bp ∈ ([⟨1, 8, BPType.unclassified⟩, ⟨2, 7, BPType.unclassified⟩] :
          List BasePair), q = normBP bp) →
        ((Q : Set (Int × Int)).Pairwise fun q1 q2 => ¬ Crosses q1 q2) →
        Q.card ≤ O.length) :=
  extract_main_layer_maximal _ (by decide) (by decide)

/-- Witness for C2 at the specification's pseudoknot scenario S3. -/
theorem extract_main_layer_noncrossing_witness :
    ∃ O, ExtractMainLayer [⟨1, 5, BPType.unclassified⟩, ⟨3, 7, BPType.unclassified⟩] =
        .ok O ∧
      O.Pairwise fun o1 o2 => ¬ Crosses (o1.i, o1.j) (o2.i, o2.j) :=
  extract_main_layer_noncrossing _ (by decide)

/-! ## Input validation (C8) -/

theorem exceptOk_bind {α β : Type} (x : Except String α) (f : α → Except String β)
    (h : ∀ a, exceptOk (f a) = true) :
    exceptOk (x.bind f) = exceptOk x := by
  cases x with
  | ok a => exact h a
  | error e => rfl

theorem ok_bind {α β : Type} (a : α) (f : α → Except String β) :
    ((Except.ok a : Except String α) >>= f) = f a := rfl

theorem ok_bind_method {α β : Type} (a : α) (f : α → Except String β) :
    (Except.ok a : Except String α).bind f = f a := rfl

theorem exceptOk_bind_pure {α β : Type} (x : Except String α) (g : α → β) :
    exceptOk (x.bind fun a => Except.ok (g a)) = exceptOk x := by
  cases x with
  | ok a => rfl
  | error e => rfl

/-- Characterization of the `BuildPairMap` fold from an arbitrary starting
map: it succeeds iff every pair is in range, not self-paired, endpoint
fresh in the starting map, and the pairs are pairwise endpoint-disjoint. -/
theorem buildPairMap_fold_ok (n_res : Int) :
    ∀ (bps : List BasePair) (pm0 : Int → Int),
      exceptOk (bps.foldlM (fun pm bp =>
        if bp.i ≤ 0 ∨ bp.j ≤ 0 ∨ bp.i > n_res ∨ bp.j > n_res then
          .error "Base pair index out of range"
        else if bp.i = bp.j then
          .error "Base pair cannot be self-paired"
        else
          let i := min bp.i bp.j
          let j := max bp.i bp.j
          if pm i ≠ 0 ∨ pm j ≠ 0 then
            .error "Residue paired multiple times"
          else
            .ok (fun r => if r = i then j else if r = j then i else pm r)) pm0) = true ↔
      ((∀ bp ∈ bps, 0 < bp.i ∧ 0 < bp.j ∧ bp.i ≤ n_res ∧ bp.j ≤ n_res ∧ bp.i ≠ bp.j ∧
          pm0 bp.i = 0 ∧ pm0 bp.j = 0) ∧
        bps.Pairwise EndpointDisjoint) := by
  intro bps
  induction bps with
  | nil =>
    intro pm0
    simp [List.foldlM_nil, exceptOk, pure, Except.pure]
  | cons bp rest ih =>
    intro pm0
    rw [List.foldlM_cons]
    by_cases hrange : bp.i ≤ 0 ∨ bp.j ≤ 0 ∨ bp.i > n_res ∨ bp.j > n_res
    · rw [if_pos hrange]
      simp only [Except.bind, exceptOk]
      constructor
      · intro h
        cases h
      · rintro ⟨hall, _⟩
        have := hall bp (List.mem_cons_self _ _)
        omega
    · rw [if_neg hrange]
      by_cases hself : bp.i = bp.j
      · rw [if_pos hself]
        simp only [Except.bind, exceptOk]
        constructor
        · intro h
          cases h
        · rintro ⟨hall, _⟩
          have := hall bp (List.mem_cons_self _ _)
          omega
      · rw [if_neg hself]
        by_cases hdup : pm0 (min bp.i bp.j) ≠ 0 ∨ pm0 (max bp.i bp.j) ≠ 0
        · rw [if_pos hdup]
          simp only [Except.bind, exceptOk]
          constructor
          · intro h
            cases h
          · rintro ⟨hall, _⟩
            have := hall bp (List.mem_cons_self _ _)
            rcases hdup with h | h
            · rcases min_cases bp.i bp.j with ⟨he, _⟩ | ⟨he, _⟩
              · rw [he] at h
                omega
              · rw [he] at h
                omega
            · rcases max_cases bp.i bp.j with ⟨he, _⟩ | ⟨he, _⟩
              · rw [he] at h
                omega
              · rw [he] at h
                omega
        · rw [if_neg hdup]
          push_neg at hrange hdup
          rw [ok_bind, ih]
          constructor
          · rintro ⟨hall, hpw⟩
            have hmin0 : pm0 (min bp.i bp.j) = 0 := hdup.1
            have hmax0 : pm0 (max bp.i bp.j) = 0 := hdup.2
            refine ⟨?_, ?_⟩
            · intro q hq
              rcases List.mem_cons.1 hq with rfl | hq2
              · refine ⟨by omega, by omega, by omega, by omega, hself, ?_, ?_⟩
                · rcases le_total q.i q.j with hle | hle
                  · rwa [min_eq_left hle] at hmin0
                  · rwa [max_eq_left hle] at hmax0
                · rcases le_total q.i q.j with hle | hle
                  · rwa [max_eq_right hle] at hmax0
                  · rwa [min_eq_right hle] at hmin0
              · obtain ⟨v1, v2, v3, v4, v5, f1, f2⟩ := hall q hq2
                refine ⟨v1, v2, v3, v4, v5, ?_, ?_⟩
                · by_cases e1 : q.i = min bp.i bp.j
                  · rw [if_pos e1] at f1
                    omega
                  · rw [if_neg e1] at f1
                    by_cases e2 : q.i = max bp.i bp.j
                    · rw [if_pos e2] at f1
                      omega
                    · rwa [if_neg e2] at f1
                · by_cases e1 : q.j = min bp.i bp.j
                  · rw [if_pos e1] at f2
                    omega
                  · rw [if_neg e1] at f2
                    by_cases e2 : q.j = max bp.i bp.j
                    · rw [if_pos e2] at f2
                      omega
                    · rwa [if_neg e2] at f2
            · rw [List.pairwise_cons]
              refine ⟨?_, hpw⟩
              intro q hq
              obtain ⟨_, _, _, _, _, f1, f2⟩ := hall q hq
              unfold EndpointDisjoint
              by_cases e1 : q.i = min bp.i bp.j
              · rw [if_pos e1] at f1
                omega
              · by_cases e2 : q.i = max bp.i bp.j
                · rw [if_neg e1, if_pos e2] at f1
                  omega
                · by_cases e3 : q.j = min bp.i bp.j
                  · rw [if_pos e3] at f2
                    omega
                  · by_cases e4 : q.j = max bp.i bp.j
                    · rw [if_neg e3, if_pos e4] at f2
                      omega
                    · omega
          · rintro ⟨hall, hpw⟩
            rw [List.pairwise_cons] at hpw
            refine ⟨?_, hpw.2⟩
            intro q hq
            obtain ⟨v1, v2, v3, v4, v5, f1, f2⟩ := hall q (List.mem_cons_of_mem _ hq)
            have hdisj := hpw.1 q hq
            unfold EndpointDisjoint at hdisj
            refine ⟨v1, v2, v3, v4, v5, ?_, ?_⟩
            · rw [if_neg (by omega), if_neg (by omega)]
              exact f1
            · rw [if_neg (by omega), if_neg (by omega)]
              exact f2

/-- Claim C8 (amended): when `main_layer_only` is off, `BuildLoops` aborts
exactly on malformed input. -/
theorem build_loops_validation (bps : List BasePair) (n_res : Int)
    (options : LoopBuildOptions) (h : options.main_layer_only = false) :
    exceptOk (BuildLoops bps n_res options) = true ↔ WellFormedInput bps n_res := by
  unfold BuildLoops
  by_cases hn : n_res ≤ 0
  · rw [if_pos hn]
    unfold WellFormedInput
    constructor
    · intro hok
      cases hok
    · intro hw
      omega
  · rw [if_neg hn, h]
    simp only [Bool.false_eq_true, if_false]
    rw [ok_bind_method]
    rw [exceptOk_bind_pure]
    unfold BuildPairMap
    rw [buildPairMap_fold_ok]
    unfold WellFormedInput
    constructor
    · rintro ⟨hall, hpw⟩
      refine ⟨by omega, ?_, hpw⟩
      intro bp hbp
      have := hall bp hbp
      omega
    · rintro ⟨_, hall, hpw⟩
      refine ⟨?_, hpw⟩
      intro bp hbp
      have := hall bp hbp
      exact ⟨by omega, by omega, by omega, by omega, by omega, rfl, rfl⟩

/-- Counterexample to C8 as stated: with `main_layer_only` enabled, the
extractor silently discards one of two pairs sharing residue 1, so the
malformed input `[(1,5), (1,7)]` is accepted instead of aborting. -/
theorem build_loops_validation_cex :
    exceptOk (BuildLoops [⟨1, 5, BPType.unclassified⟩, ⟨1, 7, BPType.unclassified⟩] 7
      ⟨true, false⟩) = true ∧
    ¬ WellFormedInput [⟨1, 5, BPType.unclassified⟩, ⟨1, 7, BPType.unclassified⟩] 7 := by
  constructor
  · decide
  · decide

/-- Witness for the amended C8 at concrete inputs: a well-formed input is
accepted, a doubly-paired residue is rejected, when the main-layer filter
is off. -/
theorem build_loops_validation_witness :
    (exceptOk (BuildLoops [⟨1, 5, BPType.unclassified⟩] 5 ⟨false, true⟩) = true ↔
      WellFormedInput [⟨1, 5, BPType.unclassified⟩] 5) ∧
    (exceptOk (BuildLoops [⟨1, 5, BPType.unclassified⟩, ⟨1, 7, BPType.unclassified⟩] 7
        ⟨false, false⟩) = true ↔
      WellFormedInput [⟨1, 5, BPType.unclassified⟩, ⟨1, 7, BPType.unclassified⟩] 7) :=
  ⟨build_loops_validation _ _ _ rfl, build_loops_validation _ _ _ rfl⟩

/-! ## Skip residues (C5) -/

theorem foldl_min_le_init (l : List Int) : ∀ init, l.foldl min init ≤ init := by
  induction l with
  | nil => exact fun _ => le_rfl
  | cons b t ih =>
    intro init
    calc (b :: t).foldl min init = t.foldl min (min init b) := rfl
      _ ≤ min init b := ih _
      _ ≤ init := min_le_left _ _

theorem foldl_min_le_of_mem {l : List Int} {a : Int} (h : a ∈ l) :
    ∀ init, l.foldl min init ≤ a := by
  induction l with
  | nil => cases h
  | cons b t ih =>
    intro init
    rcases List.mem_cons.1 h with rfl | h2
    · calc (a :: t).foldl min init = t.foldl min (min init a) := rfl
        _ ≤ min init a := foldl_min_le_init _ _
        _ ≤ a := min_le_right _ _
    · exact ih h2 (min init b)

theorem init_le_foldl_max (l : List Int) : ∀ init, init ≤ l.foldl max init := by
  induction l with
  | nil => exact fun _ => le_rfl
  | cons b t ih =>
    intro init
    calc init ≤ max init b := le_max_left _ _
      _ ≤ t.foldl max (max init b) := ih _
      _ = (b :: t).foldl max init := rfl

theorem le_foldl_max_of_mem {l : List Int} {a : Int} (h : a ∈ l) :
    ∀ init, a ≤ l.foldl max init := by
  induction l with
  | nil => cases h
  | cons b t ih =>
    intro init
    rcases List.mem_cons.1 h with rfl | h2
    · calc a ≤ max init a := le_max_right _ _
        _ ≤ t.foldl max (max init a) := init_le_foldl_max _ _
        _ = (a :: t).foldl max init := rfl
    · exact ih h2 (max init b)

theorem foldl_min_cases (l : List Int) :
    ∀ init, l.foldl min init = init ∨ l.foldl min init ∈ l := by
  induction l with
  | nil => exact fun _ => Or.inl rfl
  | cons b t ih =>
    intro init
    rcases ih (min init b) with h | h
    · rcases min_cases init b with ⟨he, _⟩ | ⟨he, _⟩
      · exact Or.inl (by rw [show (b :: t).foldl min init = t.foldl min (min init b) from rfl, h, he])
      · refine Or.inr ?_
        rw [show (b :: t).foldl min init = t.foldl min (min init b) from rfl, h, he]
        exact List.mem_cons_self _ _
    · exact Or.inr (List.mem_cons_of_mem _ h)

theorem foldl_max_cases (l : List Int) :
    ∀ init, l.foldl max init = init ∨ l.foldl max init ∈ l := by
  induction l with
  | nil => exact fun _ => Or.inl rfl
  | cons b t ih =>
    intro init
    rcases ih (max init b) with h | h
    · rcases max_cases init b with ⟨he, _⟩ | ⟨he, _⟩
      · exact Or.inl (by rw [show (b :: t).foldl max init = t.foldl max (max init b) from rfl, h, he])
      · refine Or.inr ?_
        rw [show (b :: t).foldl max init = t.foldl max (max init b) from rfl, h, he]
        exact List.mem_cons_self _ _
    · exact Or.inr (List.mem_cons_of_mem _ h)

/-- Claim C5 (amended, loop_utils.h variant): for a multi loop whose
endpoints fit in 32-bit range, the skip list contains exactly the residues
from the smallest to the largest closing-pair endpoint (each pair's
endpoints, which the source pushes explicitly first, lie inside that
range). -/
theorem build_skip_residues_multi (loop : Loop)
    (hkind : loop.kind = LoopKind.multi)
    (hne : loop.closing_pairs ≠ [])
    (hbound : ∀ p ∈ loop.closing_pairs,
      -(2^31) ≤ min p.i p.j ∧ max p.i p.j ≤ 2^31 - 1) :
    ∀ r : Int, r ∈ BuildSkipResidues loop ↔
      ((∃ p ∈ loop.closing_pairs, min p.i p.j ≤ r) ∧
       (∃ p ∈ loop.closing_pairs, r ≤ max p.i p.j)) := by
  intro r
  obtain ⟨lid, lkind, lcp, lbd⟩ := loop
  simp only at hkind hbound hne ⊢
  subst hkind
  obtain ⟨p0, rest, hcons⟩ : ∃ p0 rest, lcp = p0 :: rest := by
    cases h : lcp with
    | nil => exact absurd h hne
    | cons a t => exact ⟨a, t, rfl⟩
  subst hcons
  rw [show BuildSkipResidues ⟨lid, LoopKind.multi, p0 :: rest, lbd⟩ =
      ((p0 :: rest).flatMap fun p => [min p.i p.j, max p.i p.j]) ++
      (if (((p0 :: rest).map fun p => min p.i p.j).foldl min (2^31 - 1)) ≤
          (((p0 :: rest).map fun p => max p.i p.j).foldl max (-(2^31))) then
        intRange ((((p0 :: rest).map fun p => min p.i p.j).foldl min (2^31 - 1)))
          ((((p0 :: rest).map fun p => max p.i p.j).foldl max (-(2^31))))
      else []) from rfl]
  set mins := ((p0 :: rest).map fun p => min p.i p.j) with hmins
  set maxs := ((p0 :: rest).map fun p => max p.i p.j) with hmaxs
  set m := mins.foldl min (2^31 - 1) with hm
  set M := maxs.foldl max (-(2^31)) with hM
  have hmem_min : ∀ p ∈ p0 :: rest, m ≤ min p.i p.j := by
    intro p hp
    exact foldl_min_le_of_mem (List.mem_map.2 ⟨p, hp, rfl⟩) _
  have hmem_max : ∀ p ∈ p0 :: rest, max p.i p.j ≤ M := by
    intro p hp
    exact le_foldl_max_of_mem (List.mem_map.2 ⟨p, hp, rfl⟩) _
  have hminmax : ∀ p : BasePair, min p.i p.j ≤ max p.i p.j := by
    intro p
    omega
  have hmM : m ≤ M := by
    have h1 := hmem_min p0 (List.mem_cons_self _ _)
    have h2 := hmem_max p0 (List.mem_cons_self _ _)
    have := hminmax p0
    omega
  rw [if_pos hmM]
  rw [List.mem_append, mem_intRange]
  constructor
  · intro h
    rcases h with h | ⟨h1, h2⟩
    · rcases List.mem_flatMap.1 h with ⟨p, hp, hpe⟩
      have hend : r = min p.i p.j ∨ r = max p.i p.j := by
        rcases List.mem_cons.1 hpe with he | he
        · exact Or.inl he
        · exact Or.inr (List.mem_singleton.1 he)
      have := hminmax p
      rcases hend with rfl | rfl
      · exact ⟨⟨p, hp, le_rfl⟩, ⟨p, hp, this⟩⟩
      · exact ⟨⟨p, hp, this⟩, ⟨p, hp, le_rfl⟩⟩
    · constructor
      · rcases foldl_min_cases mins (2^31 - 1) with he | he
        · rw [← hm] at he
          refine ⟨p0, List.mem_cons_self _ _, ?_⟩
          have := hbound p0 (List.mem_cons_self _ _)
          omega
        · rw [← hm] at he
          rcases List.mem_map.1 he with ⟨p, hp, hpe⟩
          exact ⟨p, hp, by omega⟩
      · rcases foldl_max_cases maxs (-(2^31)) with he | he
        · rw [← hM] at he
          refine ⟨p0, List.mem_cons_self _ _, ?_⟩
          have := hbound p0 (List.mem_cons_self _ _)
          omega
        · rw [← hM] at he
          rcases List.mem_map.1 he with ⟨p, hp, hpe⟩
          exact ⟨p, hp, by omega⟩
  · rintro ⟨⟨p, hp, hle⟩, ⟨q, hq, hge⟩⟩
    right
    constructor
    · have := hmem_min p hp
      omega
    · have := hmem_max q hq
      omega

/-- Counterexample to C5 as stated: the `BuildSkipResidues` copy inside
entanglement.cpp — the one used by that file's `BuildSurfaces` — has no
multi-loop branch and returns the empty skip list for a multi loop, not
`[min..max]` plus the closing-pair endpoints. -/
theorem build_skip_residues_multi_cex :
    BuildSkipResiduesLocal ⟨1, LoopKind.multi,
      [⟨1, 20, BPType.unclassified⟩, ⟨3, 8, BPType.unclassified⟩,
       ⟨10, 15, BPType.unclassified⟩], [2, 9, 16, 17, 18, 19]⟩ = [] ∧
    (1 : Int) ∉ BuildSkipResiduesLocal ⟨1, LoopKind.multi,
      [⟨1, 20, BPType.unclassified⟩, ⟨3, 8, BPType.unclassified⟩,
       ⟨10, 15, BPType.unclassified⟩], [2, 9, 16, 17, 18, 19]⟩ := by
  constructor
  · decide
  · decide

/-- Witness for the amended C5 at the specification's S4 multi loop and
residue 5. -/
theorem build_skip_residues_multi_witness :
    (5 : Int) ∈ BuildSkipResidues ⟨1, LoopKind.multi,
      [⟨1, 20, BPType.unclassified⟩, ⟨3, 8, BPType.unclassified⟩,
       ⟨10, 15, BPType.unclassified⟩], [2, 9, 16, 17, 18, 19]⟩ ↔
      ((∃ p ∈ [(⟨1, 20, BPType.unclassified⟩ : BasePair), ⟨3, 8, BPType.unclassified⟩,
         ⟨10, 15, BPType.unclassified⟩], min p.i p.j ≤ 5) ∧
       (∃ p ∈ [(⟨1, 20, BPType.unclassified⟩ : BasePair), ⟨3, 8, BPType.unclassified⟩,
         ⟨10, 15, BPType.unclassified⟩], (5 : Int) ≤ max p.i p.j)) :=
  build_skip_residues_multi _ rfl (by decide) (by decide) 5

/-! ## Multi-loop boundary indices (C4) -/

theorem addIndex_fresh {n_res : Int} {acc : List Int} {x : Int}
    (h1 : 0 < x) (h2 : x ≤ n_res) (h3 : x ∉ acc) :
    AddIndex n_res acc x = acc ++ [x] := by
  unfold AddIndex
  rw [if_neg (by omega), if_neg h3]

theorem addRange_fresh (n_res : Int) :
    ∀ (k : Nat) (lo hi : Int), (hi + 1 - lo).toNat = k →
      ∀ acc : List Int, (∀ x, lo ≤ x → x ≤ hi → 0 < x ∧ x ≤ n_res ∧ x ∉ acc) →
      AddRange n_res acc lo hi = acc ++ intRange lo hi := by
  intro k
  induction k with
  | zero =>
    intro lo hi hk acc _
    have hlt : hi < lo := by omega
    rw [intRange_eq_nil hlt]
    unfold AddRange
    rw [intRange_eq_nil hlt]
    simp
  | succ k ih =>
    intro lo hi hk acc hfresh
    have hle : lo ≤ hi := by omega
    obtain ⟨f1, f2, f3⟩ := hfresh lo le_rfl hle
    unfold AddRange
    rw [intRange_eq_cons hle, List.foldl_cons, addIndex_fresh f1 f2 f3]
    have := ih (lo + 1) hi (by omega) (acc ++ [lo]) ?_
    · unfold AddRange at this
      rw [this]
      simp
    · intro x hx1 hx2
      obtain ⟨g1, g2, g3⟩ := hfresh x (by omega) hx2
      refine ⟨g1, g2, ?_⟩
      rw [List.mem_append, List.mem_singleton]
      push_neg
      exact ⟨g3, by omega⟩

/-- Claim C4 (amended, entanglement.cpp `BuildSurfaces` variant): for a
multi loop, with the closing pairs sorted by (left, right) endpoint, with
`l` the first left endpoint, and `(i_br, j_br)` the first sorted pair whose
left endpoint exceeds `l`, the boundary-index list is exactly
`[l .. i_br-1]` followed by `i_br` and `j_br`. -/
theorem build_boundary_ent_multi (loop : Loop) (n_res : Int)
    (first br : Int × Int) (rest : List (Int × Int))
    (hkind : loop.kind = LoopKind.multi)
    (hsort : (loop.closing_pairs.map fun p => (min p.i p.j, max p.i p.j)).insertionSort
      (fun a b => a.1 < b.1 ∨ (a.1 = b.1 ∧ a.2 ≤ b.2)) = first :: rest)
    (hfind : (first :: rest).find? (fun p => decide (first.1 < p.1)) = some br)
    (hlo : 0 < first.1) (hbrlo : first.1 < br.1) (hbr : br.1 < br.2)
    (hbrn : br.2 ≤ n_res) :
    BuildBoundaryIndicesEnt loop n_res = intRange first.1 (br.1 - 1) ++ [br.1, br.2] := by
  unfold BuildBoundaryIndicesEnt
  rw [if_pos hkind, hsort]
  simp only [MultiBranchGap]
  rw [hfind]
  simp only
  rw [if_pos (by omega : (0:Int) < br.1)]
  have hr : AddRange n_res [] first.1 (br.1 - 1) = intRange first.1 (br.1 - 1) := by
    have := addRange_fresh n_res (br.1 - 1 + 1 - first.1).toNat first.1 (br.1 - 1)
      rfl [] ?_
    · rw [this]
      rfl
    · intro x hx1 hx2
      refine ⟨by omega, by omega, ?_⟩
      exact List.not_mem_nil x
  rw [hr]
  have h1 : AddIndex n_res (intRange first.1 (br.1 - 1)) br.1 =
      intRange first.1 (br.1 - 1) ++ [br.1] := by
    refine addIndex_fresh (by omega) (by omega) ?_
    rw [mem_intRange]
    omega
  rw [h1]
  have h2 : AddIndex n_res (intRange first.1 (br.1 - 1) ++ [br.1]) br.2 =
      (intRange first.1 (br.1 - 1) ++ [br.1]) ++ [br.2] := by
    refine addIndex_fresh (by omega) hbrn ?_
    rw [List.mem_append, List.mem_singleton, mem_intRange]
    omega
  rw [h2, List.append_assoc]
  rfl

/-- Counterexample to C4 as stated: the `BuildBoundaryIndices` of
surface_builder.cpp emits the loop's boundary residues followed by the
endpoints of every closing pair — not the spec's branch-gap list
`[l..i_br-1], i_br, j_br` — for the multi loop of scenario S4. -/
theorem build_boundary_multi_cex :
    BuildBoundaryIndices ⟨1, LoopKind.multi,
      [⟨1, 20, BPType.unclassified⟩, ⟨3, 8, BPType.unclassified⟩,
       ⟨10, 15, BPType.unclassified⟩], [2, 9, 16, 17, 18, 19]⟩ 20 =
      [2, 9, 16, 17, 18, 19, 1, 20, 3, 8, 10, 15] ∧
    BuildBoundaryIndices ⟨1, LoopKind.multi,
      [⟨1, 20, BPType.unclassified⟩, ⟨3, 8, BPType.unclassified⟩,
       ⟨10, 15, BPType.unclassified⟩], [2, 9, 16, 17, 18, 19]⟩ 20 ≠
      intRange 1 2 ++ [3, 8] := by
  constructor
  · decide
  · decide

/-- Witness for the amended C4 at the specification's S4 multi loop:
the entanglement.cpp construction yields `[1, 2, 3, 8]`. -/
theorem build_boundary_ent_multi_witness :
    BuildBoundaryIndicesEnt ⟨1, LoopKind.multi,
      [⟨1, 20, BPType.unclassified⟩, ⟨3, 8, BPType.unclassified⟩,
       ⟨10, 15, BPType.unclassified⟩], [2, 9, 16, 17, 18, 19]⟩ 20 =
      intRange 1 2 ++ [3, 8] :=
  build_boundary_ent_multi _ 20 (1, 20) (3, 8) [(3, 8), (10, 15)] rfl
    (by decide) (by decide) (by decide) (by decide) (by decide) (by decide)

/-! ## Segment–plane intersection (C9) -/

/-- Claim C9: the implemented segment–plane routine agrees with the
specification's description whenever the plane is valid and the epsilon is
positive: reject on same side, on near-plane endpoints, and on t outside
(0,1); otherwise return `A + t(B−A)`.  (The implementation's extra
`|denom| ≤ 0` guard can never fire under these hypotheses.) -/
theorem segment_plane_intersection_spec (a b : Vec3) (plane : Plane)
    (eps_plane : ℚ) (hvalid : plane.valid = true) (heps : 0 < eps_plane) :
    SegmentPlaneIntersection a b plane eps_plane = SegmentPlaneSpec a b plane eps_plane := by
  unfold SegmentPlaneIntersection SegmentPlaneSpec
  rw [if_neg (by rw [hvalid]; intro h; cases h)]
  set d_a := Dot (Subv a plane.c) plane.n_hat with hda
  set d_b := Dot (Subv b plane.c) plane.n_hat with hdb
  by_cases h1 : d_a * d_b > 0
  · rw [if_pos h1, if_pos (Or.inl h1)]
  · rw [if_neg h1]
    by_cases h2 : |d_a| < eps_plane ∨ |d_b| < eps_plane
    · rw [if_pos h2, if_pos (Or.inr h2)]
    · -- in the surviving branch, the implementation's |denom| ≤ 0 guard is
      -- impossible: both distances exceed eps in magnitude
      have h3 : ¬ |d_a - d_b| ≤ 0 := by
        push_neg at h1 h2
        intro hden
        have hzero : d_a - d_b = 0 := abs_nonpos_iff.1 hden
        have heq : d_a = d_b := by linarith
        rw [heq] at h1
        have hnn : 0 ≤ d_b * d_b := mul_self_nonneg d_b
        have hb0 : d_b = 0 := by nlinarith
        rw [hb0] at h2
        simp only [abs_zero] at h2
        linarith [h2.2]
      rw [if_neg h2,
        if_neg (by tauto : ¬ (d_a * d_b > 0 ∨ |d_a| < eps_plane ∨ |d_b| < eps_plane)),
        if_neg h3]

/-- Witness for C9 at the specification's S5 numbers: signed distances
`+5e-3` and `−3e-2` against `eps_plane = 1e-2` are rejected. -/
theorem segment_plane_intersection_spec_witness :
    SegmentPlaneIntersection ⟨0, 0, 5/1000⟩ ⟨0, 0, -(3/100)⟩
      ⟨⟨0, 0, 0⟩, ⟨0, 0, 1⟩, ⟨1, 0, 0⟩, ⟨0, 1, 0⟩, true⟩ (1/100) =
    SegmentPlaneSpec ⟨0, 0, 5/1000⟩ ⟨0, 0, -(3/100)⟩
      ⟨⟨0, 0, 0⟩, ⟨0, 0, 1⟩, ⟨1, 0, 0⟩, ⟨0, 1, 0⟩, true⟩ (1/100) ∧
    SegmentPlaneIntersection ⟨0, 0, 5/1000⟩ ⟨0, 0, -(3/100)⟩
      ⟨⟨0, 0, 0⟩, ⟨0, 0, 1⟩, ⟨1, 0, 0⟩, ⟨0, 1, 0⟩, true⟩ (1/100) = none :=
  ⟨segment_plane_intersection_spec _ _ _ _ rfl (by norm_num),
   by with_unfolding_all decide⟩

/-! ## Skip masking (C6) -/

/-- Any hit recorded while testing one segment against one surface is
either an old hit or carries that surface's loop id and that segment's id. -/
theorem processSegment_hits (surface : Surface) (options : EvaluateOptions)
    (st : EvalState) (segment : Segment) :
    ∀ h ∈ (ProcessSegment surface options st segment).hits,
      h ∈ st.hits ∨ (h.loop_id = surface.loop_id ∧ h.segment_id = segment.id) := by
  unfold ProcessSegment
  rcases SegmentPlaneIntersection segment.a segment.b surface.plane options.eps_plane
    with _ | pt
  · exact fun h hh => Or.inl hh
  · simp only
    split
    · exact fun h hh => Or.inl hh
    · split
      · exact fun h hh => Or.inl hh
      · intro h hh
        simp only at hh
        rcases List.mem_append.1 hh with h2 | h2
        · exact Or.inl h2
        · rcases List.mem_singleton.1 h2 with rfl
          exact Or.inr ⟨rfl, rfl⟩

/-- Core of claim C6: during the pass over one surface, a segment whose
endpoint residue lies in the surface's skip list produces no new hit. -/
theorem processSurface_skip (segments : List Segment) (options : EvaluateOptions)
    (st : EvalState) (surface : Surface) (r : Int)
    (hskip : r ∈ surface.skip_residues ∨ r + 1 ∈ surface.skip_residues) :
    ∀ h ∈ (ProcessSurface segments options st surface).hits,
      h.segment_id = r → h ∈ st.hits := by
  unfold ProcessSurface
  split
  · exact fun h hh _ => hh
  · induction segments generalizing st with
    | nil => exact fun h hh _ => hh
    | cons seg rest ih =>
      rw [List.foldl_cons]
      intro h hh hr
      by_cases hsk : seg.id ∈ surface.skip_residues ∨ seg.id + 1 ∈ surface.skip_residues
      · rw [if_pos hsk] at hh
        exact ih st h hh hr
      · rw [if_neg hsk] at hh
        have h2 := ih (ProcessSegment surface options st seg) h hh hr
        rcases processSegment_hits surface options st seg h h2 with h3 | h3
        · exact h3
        · exfalso
          rw [hr] at h3
          rcases hskip with h4 | h4
          · exact hsk (by rw [← h3.2]; exact Or.inl h4)
          · exact hsk (by rw [← h3.2]; exact Or.inr h4)

/-- Claim C6: (1) for every surface and segment `(r, r+1)`, if `r` or `r+1`
is in the surface's skip-residue list, the pass over that surface records
no hit for that segment; (2) in particular, for a surface whose skip list
is built from a hairpin loop with closing pair `(i, j)`, the segments
`(i, i+1)` and `(j−1, j)` never register as hits against that surface,
regardless of coordinates. -/
theorem skip_mask_excludes :
    (∀ (segments : List Segment) (options : EvaluateOptions) (st : EvalState)
      (surface : Surface) (r : Int),
      (r ∈ surface.skip_residues ∨ r + 1 ∈ surface.skip_residues) →
      ∀ h ∈ (ProcessSurface segments options st surface).hits,
        h.segment_id = r → h ∈ st.hits) ∧
    (∀ (segments : List Segment) (options : EvaluateOptions) (st : EvalState)
      (surface : Surface) (lid : Int) (i j : Int) (t : BPType) (bd : List Int),
      surface.skip_residues = BuildSkipResidues ⟨lid, LoopKind.hairpin, [⟨i, j, t⟩], bd⟩ →
      i < j →
      ∀ h ∈ (ProcessSurface segments options st surface).hits,
        (h.segment_id = i ∨ h.segment_id = j - 1) → h ∈ st.hits) := by
  constructor
  · exact processSurface_skip
  · intro segments options st surface lid i j t bd hsk hij h hh hcase
    have hskipeq : BuildSkipResidues ⟨lid, LoopKind.hairpin, [⟨i, j, t⟩], bd⟩ =
        intRange (min i j) (max i j) := rfl
    rcases hcase with hr | hr
    · refine processSurface_skip segments options st surface i ?_ h hh hr
      left
      rw [hsk, hskipeq, mem_intRange]
      omega
    · refine processSurface_skip segments options st surface (j - 1) ?_ h hh hr
      right
      rw [hsk, hskipeq, mem_intRange]
      omega

/-- Witness for C6 at a concrete surface whose skip list is the hairpin
range `[1..4]`. -/
theorem skip_mask_excludes_witness :
    ((1 : Int) ∈ (⟨7, LoopKind.hairpin, [], ⟨⟨0,0,0⟩, ⟨0,0,1⟩, ⟨1,0,0⟩, ⟨0,1,0⟩, true⟩,
        ⟨[⟨-1,-1⟩, ⟨1,-1⟩, ⟨1,1⟩, ⟨-1,1⟩], true⟩, [], [1, 2, 3, 4]⟩ : Surface).skip_residues ∨
      (1 : Int) + 1 ∈ (⟨7, LoopKind.hairpin, [], ⟨⟨0,0,0⟩, ⟨0,0,1⟩, ⟨1,0,0⟩, ⟨0,1,0⟩, true⟩,
        ⟨[⟨-1,-1⟩, ⟨1,-1⟩, ⟨1,1⟩, ⟨-1,1⟩], true⟩, [], [1, 2, 3, 4]⟩ : Surface).skip_residues) ∧
    (∀ h ∈ (ProcessSurface [⟨1, ⟨0,0,1⟩, ⟨0,0,-1⟩⟩] {} ⟨[], []⟩
        ⟨7, LoopKind.hairpin, [], ⟨⟨0,0,0⟩, ⟨0,0,1⟩, ⟨1,0,0⟩, ⟨0,1,0⟩, true⟩,
         ⟨[⟨-1,-1⟩, ⟨1,-1⟩, ⟨1,1⟩, ⟨-1,1⟩], true⟩, [], [1, 2, 3, 4]⟩).hits,
      h.segment_id = 1 → h ∈ ([] : List HitInfo)) :=
  ⟨Or.inl (by decide),
   skip_mask_excludes.1 _ _ _ _ 1 (Or.inl (by decide))⟩

/-! ## Hit uniqueness (C7) -/

theorem processSegment_inv (surface : Surface) (options : EvaluateOptions)
    (st : EvalState) (segment : Segment) (hinv : HitsInv st) :
    HitsInv (ProcessSegment surface options st segment) := by
  unfold ProcessSegment
  rcases SegmentPlaneIntersection segment.a segment.b surface.plane options.eps_plane
    with _ | pt
  · exact hinv
  · simp only
    split
    · exact hinv
    · split
      · exact hinv
      · rename_i hnotmem
        obtain ⟨hall, hpw⟩ := hinv
        constructor
        · intro h hh
          rcases List.mem_append.1 hh with h2 | h2
          · exact List.mem_cons_of_mem _ (hall h h2)
          · rcases List.mem_singleton.1 h2 with rfl
            exact List.mem_cons_self _ _
        · rw [List.pairwise_append]
          refine ⟨hpw, List.pairwise_singleton _ _, ?_⟩
          intro h1 h1mem h2 h2mem
          rcases List.mem_singleton.1 h2mem with rfl
          have b3 := hall h1 h1mem
          simp only
          by_contra hcon
          push_neg at hcon
          have hkeq : HitKey h1.loop_id h1.segment_id =
              HitKey surface.loop_id segment.id := by
            rw [hcon.1, hcon.2]
          rw [hkeq] at b3
          exact hnotmem b3

theorem processSurface_foldl_inv (surface : Surface) (options : EvaluateOptions) :
    ∀ (segs : List Segment) (st : EvalState), HitsInv st →
      HitsInv (segs.foldl (fun st segment =>
        if segment.id ∈ surface.skip_residues ∨ (segment.id + 1) ∈ surface.skip_residues
        then st
        else ProcessSegment surface options st segment) st) := by
  intro segs
  induction segs with
  | nil => exact fun st h => h
  | cons seg rest ih =>
    intro st hinv
    rw [List.foldl_cons]
    refine ih _ ?_
    split
    · exact hinv
    · exact processSegment_inv surface options st seg hinv

theorem processSurface_inv (segments : List Segment) (options : EvaluateOptions)
    (st : EvalState) (surface : Surface) (hinv : HitsInv st) :
    HitsInv (ProcessSurface segments options st surface) := by
  unfold ProcessSurface
  split
  · exact hinv
  · exact processSurface_foldl_inv surface options segments st hinv

/-- Claim C7: in every result, `K` is the number of hits, and no two hits
share the same `(loop_id, segment_id)`: the int64 key of a repeated
`(loop_id, segment_id)` pair always coincides with the recorded key, so the
key-set guard suppresses it. -/
theorem evaluate_hits_unique (coords : List ResidueCoord)
    (surfaces : List Surface) (options : EvaluateOptions) :
    (EvaluateEntanglement coords surfaces options).K =
      ((EvaluateEntanglement coords surfaces options).hits.length : Int) ∧
    (EvaluateEntanglement coords surfaces options).hits.Pairwise
      (fun h1 h2 => h1.loop_id ≠ h2.loop_id ∨ h1.segment_id ≠ h2.segment_id) := by
  unfold EvaluateEntanglement
  split
  · exact ⟨rfl, List.Pairwise.nil⟩
  · constructor
    · rfl
    · have hfold : ∀ (ss : List Surface) (st : EvalState), HitsInv st →
          HitsInv (ss.foldl (ProcessSurface
            (BuildSegments (BuildCoordMap coords options.atom_index)) options) st) := by
        intro ss
        induction ss with
        | nil => exact fun st h => h
        | cons sf rest ih =>
          intro st h
          rw [List.foldl_cons]
          exact ih _ (processSurface_inv _ options st sf h)
      have := hfold surfaces ⟨[], []⟩ ⟨fun h hh => absurd hh (List.not_mem_nil _),
        List.Pairwise.nil⟩
      exact this.2

/-! ## Triangle mode is never consulted (C3) -/

/-- Claim C3 (amended): the evaluator never reads a surface's triangle list
nor `eps_triangle`; erasing all triangles and changing `eps_triangle`
leaves the result unchanged — every candidate segment is decided by the
segment–plane test plus the 2-D point-in-polygon test alone. -/
theorem evaluate_ignores_triangles (coords : List ResidueCoord)
    (surfaces : List Surface) (options : EvaluateOptions) (e : ℚ) :
    EvaluateEntanglement coords (surfaces.map fun s => { s with triangles := [] })
      { options with eps_triangle := e } =
    EvaluateEntanglement coords surfaces options := by
  unfold EvaluateEntanglement
  rw [show ({ options with eps_triangle := e } : EvaluateOptions).atom_index =
    options.atom_index from rfl]
  by_cases hc : (BuildCoordMap coords options.atom_index).n_res ≤ 1
  · rw [if_pos hc, if_pos hc]
  · rw [if_neg hc, if_neg hc]
    simp only [List.foldl_map]
    rfl

/-- Counterexample to C3 as stated: a surface in (default) triangle-planes
mode with an empty triangle list — against which the claimed per-triangle
test, stopping at the first triangle hit, can never report a hit — still
yields `K = 1` because the code always runs the plane + polygon test. -/
theorem evaluate_triangle_mode_cex :
    (EvaluateEntanglement [⟨1, [⟨0, 0, 1⟩]⟩, ⟨2, [⟨0, 0, -1⟩]⟩]
      [⟨1, LoopKind.hairpin, [], ⟨⟨0, 0, 0⟩, ⟨0, 0, 1⟩, ⟨1, 0, 0⟩, ⟨0, 1, 0⟩, true⟩,
        ⟨[⟨-10, -10⟩, ⟨10, -10⟩, ⟨10, 10⟩, ⟨-10, 10⟩], true⟩, [], []⟩] {}).K = 1 ∧
    (⟨1, LoopKind.hairpin, [], ⟨⟨0, 0, 0⟩, ⟨0, 0, 1⟩, ⟨1, 0, 0⟩, ⟨0, 1, 0⟩, true⟩,
      ⟨[⟨-10, -10⟩, ⟨10, -10⟩, ⟨10, 10⟩, ⟨-10, 10⟩], true⟩, [], []⟩ : Surface).triangles
      = [] := by
  constructor
  · with_unfolding_all decide
  · rfl

end rna
